import Mathlib

/-!
Verification of the knowledge-graph builder in
`privacy_policy_analyzer/scripts/build_graph.py`.

The Python program is shallowly embedded below.  Graphs (`networkx.DiGraph`
and `networkx.MultiDiGraph`) are modelled as explicit node/edge lists; Python
sets are modelled as duplicate-free lists built by insert-if-new updates;
spaCy token attributes, the phrase normalizers, the entity matcher, the
purpose classifier and `networkx.topological_sort` are external services and
appear as function parameters of the embedded builders.
-/

namespace BuildGraph

/-- Relationship labels of the token-relationship graph and of both stage
graphs (`COLLECT`, `NOT_COLLECT`, `SUBSUM`, `COREF`, `PURPOSE`). -/
inductive Rel where
  | COLLECT
  | NOT_COLLECT
  | SUBSUM
  | COREF
  | PURPOSE
deriving DecidableEq, Repr

/-- Values of `token._.ent_type` inspected by stage 1 (`build_graph.py`
lines 167-177).  Any value other than the four named ones behaves like
`NN` (the `match` has no case for it), so it is not modelled separately. -/
inductive EntType where
  | NN
  | DATA
  | ACTOR
  | OTHER
deriving DecidableEq, Repr

/-- Semantic type attribute of a stage-1 node. -/
inductive PType where
  | DATA
  | ACTOR
  | OTHER
deriving DecidableEq, Repr

/-- A token source identifier: (segment index, token position), as stored in
`token._.src`. -/
abbrev Src := Nat × Nat

section SetOps

variable {α : Type} [DecidableEq α]

/-- Python `set.add` on a set represented as a duplicate-free list. -/
def insSet (l : List α) (a : α) : List α :=
  if a ∈ l then l else l ++ [a]

/-- Python `set.update` on sets represented as duplicate-free lists. -/
def unionSet (l m : List α) : List α :=
  m.foldl insSet l

/-- Cartesian product of two lists, as `itertools.product` enumerates it. -/
def listProd : List α → List α → List (α × α)
  | [], _ => []
  | a :: as, m => (m.map fun b => (a, b)) ++ listProd as m

end SetOps

section Reachability

variable {α : Type} [DecidableEq α]

/-- Directed reachability over an edge list: the reflexive-transitive
closure of the one-step edge relation.  `Reach adj a b` holds when there is
a (possibly empty) directed path from `a` to `b`. -/
def Reach (adj : List (α × α)) (a b : α) : Prop :=
  Relation.ReflTransGen (fun x y => (x, y) ∈ adj) a b

/-- Fold of one saturation round over an explicit edge list. -/
def stepFold (l : List (α × α)) (s : List α) : List α :=
  l.foldl (fun acc e => if e.1 ∈ acc ∧ e.2 ∉ acc then acc ++ [e.2] else acc) s

/-- One saturation round of the forward-reachability computation: add the
target of every edge whose source is already in the accumulator. -/
def stepClosure (adj : List (α × α)) (s : List α) : List α :=
  stepFold adj s

/-- Iterated saturation. -/
def iterClosure (adj : List (α × α)) : Nat → List α → List α
  | 0, s => s
  | n + 1, s => iterClosure adj n (stepClosure adj s)

/-- Executable set of nodes reachable from `a` (the model of the breadth
first search performed by `networkx`'s reachability queries). -/
def reachFrom (adj : List (α × α)) (a : α) : List α :=
  iterClosure adj adj.length [a]

/-- Acyclicity of an edge list: no edge closes a directed cycle. -/
def Acyclic (adj : List (α × α)) : Prop :=
  ∀ a b : α, (a, b) ∈ adj → ¬ Reach adj b a

end Reachability

/-! ## Stage-1 graph (`networkx.DiGraph` over token sources)

Node attributes: `token` (not modelled — only its external attributes are
consumed, through the service parameters), `type`, and, after step 5,
`normalized_terms` and `coref_main`.  The latter two are unset (`[]`) until
step 5 writes them; Python would raise `KeyError` on a read before that,
which the theorems' hypotheses make unreachable. -/

/-- A stage-1 node with its attribute dictionary. -/
structure S1Node where
  src : Src
  ptype : PType
  normalized_terms : List String
  coref_main : List Src
deriving DecidableEq, Repr

/-- A stage-1 edge with its attribute dictionary (`relationship`, and
`purposes` for COLLECT edges; `purposes` is unset = `[]` elsewhere). -/
structure S1Edge where
  src : Src
  dst : Src
  relationship : Rel
  purposes : List (String × String)
deriving DecidableEq, Repr

/-- The stage-1 graph: a simple directed graph with at most one edge per
ordered node pair, as `networkx.DiGraph` keeps it. -/
structure S1Graph where
  nodes : List S1Node
  edges : List S1Edge
deriving DecidableEq, Repr

namespace S1Graph

/-- Underlying adjacency (ordered pairs) of the stage-1 graph. -/
def adj (g : S1Graph) : List (Src × Src) :=
  g.edges.map fun e => (e.src, e.dst)

/-- The node identifiers, in insertion order. -/
def srcs (g : S1Graph) : List Src :=
  g.nodes.map (·.src)

/-- `src in stage1_graph`. -/
def hasNode (g : S1Graph) (s : Src) : Bool :=
  g.nodes.any fun n => n.src = s

/-- First node record carrying identifier `s`. -/
def lookup (g : S1Graph) (s : Src) : Option S1Node :=
  g.nodes.find? fun n => n.src = s

/-- `stage1_graph.nodes[s]["type"]`. -/
def typeOf (g : S1Graph) (s : Src) : Option PType :=
  (g.lookup s).map (·.ptype)

/-- `stage1_graph.nodes[s]["normalized_terms"]` (unset reads as `[]`). -/
def termsOf (g : S1Graph) (s : Src) : List String :=
  ((g.lookup s).map (·.normalized_terms)).getD []

/-- `stage1_graph.nodes[s]["coref_main"]` (unset reads as `[]`; Python
raises `KeyError` instead, which is unreachable in the modelled runs). -/
def corefOf (g : S1Graph) (s : Src) : List Src :=
  ((g.lookup s).map (·.coref_main)).getD []

/-- `stage1_graph.add_node(s, token=…, type=t)`: insert a fresh node, or
update the `type` attribute of an existing one. -/
def addNode (g : S1Graph) (s : Src) (t : PType) : S1Graph :=
  if g.hasNode s then
    { g with nodes := g.nodes.map fun n => if n.src = s then { n with ptype := t } else n }
  else
    { g with nodes := g.nodes ++ [⟨s, t, [], []⟩] }

/-- `stage1_graph.add_edge(u, v, relationship=r)`: insert a fresh edge, or
update the `relationship` attribute of the existing `(u, v)` edge.  (The
`networkx` call would also create missing endpoint nodes without a `type`
attribute; every call site in `build_graph.py` first ensures both endpoints
exist, so node creation is not modelled here.) -/
def addEdge (g : S1Graph) (u v : Src) (r : Rel) : S1Graph :=
  if g.edges.any fun e => e.src = u ∧ e.dst = v then
    { g with edges := g.edges.map fun e =>
        if e.src = u ∧ e.dst = v then { e with relationship := r } else e }
  else
    { g with edges := g.edges ++ [⟨u, v, r, []⟩] }

end S1Graph

/-- `dag_add_edge` (`build_graph.py` lines 137-142): refuse the insertion
when `n1 == n2` or `n2 in nx.ancestors(G, n1)` — that is, when a directed
path from `n2` to `n1` already exists — and otherwise insert `n1 → n2`.
Returns the Python function's boolean together with the updated graph. -/
def dag_add_edge (g : S1Graph) (n1 n2 : Src) (r : Rel) : Bool × S1Graph :=
  if n1 = n2 ∨ n1 ∈ reachFrom g.adj n2 then
    (false, g)
  else
    (true, g.addEdge n1 n2 r)


/-! ## Stage-1 builder (`GraphBuilder.__build_graph_stage1`)

The input `document.token_relationship` graph is a node list, an edge list
(at most one edge per ordered pair, as in `networkx.DiGraph`), and the
`token._.ent_type` attribute of each node's token. -/

/-- The per-document token-relationship graph produced by the annotators. -/
structure TokenRel where
  nodes : List Src
  edges : List (Src × Src × Rel)
  entType : Src → EntType

/-- Step 1 (lines 163-177): seed node types from the NER label; `NN` nodes
are deferred. -/
def stage1Step1 (doc : TokenRel) : S1Graph :=
  doc.nodes.foldl (fun g s =>
    match doc.entType s with
    | EntType.NN => g
    | EntType.DATA => g.addNode s PType.DATA
    | EntType.ACTOR => g.addNode s PType.ACTOR
    | EntType.OTHER => g.addNode s PType.OTHER) ⟨[], []⟩

/-- `if src1 not in stage1_graph: stage1_graph.add_node(src1, …,
type="ACTOR")` (lines 187-188). -/
def step2EnsureSrc1 (g : S1Graph) (s : Src) : S1Graph :=
  if g.hasNode s then g else g.addNode s PType.ACTOR

/-- `if src2 not in stage1_graph: stage1_graph.add_node(src2, …,
type="DATA")` (lines 190-191). -/
def step2EnsureSrc2 (g : S1Graph) (s : Src) : S1Graph :=
  if g.hasNode s then g else g.addNode s PType.DATA

/-- The two endpoint-defaulting statements of step 2 in sequence. -/
def stage1Step2Ensure (g : S1Graph) (src1 src2 : Src) : S1Graph :=
  step2EnsureSrc2 (step2EnsureSrc1 g src1) src2

/-- The body of step 2's edge loop (lines 180-195): type COLLECT /
NOT_COLLECT endpoints, default a missing source to ACTOR and a missing
target to DATA, and keep the edge only when the realized types are exactly
(ACTOR, DATA). -/
def stage1Step2Edge (g : S1Graph) (e : Src × Src × Rel) : S1Graph :=
  if e.2.2 = Rel.COLLECT ∨ e.2.2 = Rel.NOT_COLLECT then
    if (stage1Step2Ensure g e.1 e.2.1).typeOf e.1 = some PType.ACTOR ∧
        (stage1Step2Ensure g e.1 e.2.1).typeOf e.2.1 = some PType.DATA then
      (stage1Step2Ensure g e.1 e.2.1).addEdge e.1 e.2.1 e.2.2
    else stage1Step2Ensure g e.1 e.2.1
  else g

/-- Step 2 (lines 179-195). -/
def stage1Step2 (doc : TokenRel) (g : S1Graph) : S1Graph :=
  doc.edges.foldl stage1Step2Edge g

/-- The purpose texts hanging off a DATA node through PURPOSE edges of the
token-relationship graph (lines 205-212).  The text of the purpose token's
right subtree is supplied by the external `purposeText` service. -/
def purposeTextsOf (doc : TokenRel) (purposeText : Src → String) (d : Src) :
    List String :=
  doc.edges.filterMap fun e =>
    if e.1 = d ∧ e.2.2 = Rel.PURPOSE then some (purposeText e.2.1) else none

/-- Step 2.5 (lines 197-225): classify each DATA node's purpose texts and
attach the (category, text) pairs to every inbound COLLECT edge.  The batch
purpose classifier is the external `classify` service. -/
def stage1Step2_5 (doc : TokenRel) (classify : String → String)
    (purposeText : Src → String) (g : S1Graph) : S1Graph :=
  let dataPurposes : List (Src × List String) :=
    g.nodes.filterMap fun n =>
      if n.ptype = PType.DATA then
        let texts := purposeTextsOf doc purposeText n.src
        if texts = [] then none else some (n.src, texts)
      else none
  dataPurposes.foldl (fun g dp =>
    let edgePurposes := dp.2.map fun t => (classify t, t)
    { g with edges := g.edges.map fun e =>
        if e.dst = dp.1 ∧ e.relationship = Rel.COLLECT then
          { e with purposes := edgePurposes }
        else e }) g

/-- The SUBSUM/COREF work list of a dequeued node: its in-edges followed by
its out-edges in the token-relationship graph (lines 239-242). -/
def s3edges (doc : TokenRel) (src1 : Src) : List (Src × Src × Rel) :=
  doc.edges.filter (fun e => e.2.1 = src1) ++ doc.edges.filter (fun e => e.1 = src1)

/-- Lines 246-253: add the untyped neighbor `src2` with the inherited
type.  Faithful to line 250: the membership test is `src2 in
visited_nodes` (not `not in`), so the enqueue branch is taken only when
`src2` is already among the visited nodes — which never happens. -/
def stage1Step3AddNode (src2 : Src) (pt : PType)
    (st : S1Graph × List Src × List Src) : S1Graph × List Src × List Src :=
  if st.1.hasNode src2 then st
  else if src2 ∈ st.2.2 then
    (st.1.addNode src2 pt, st.2.1 ++ [src2], insSet st.2.2 src2)
  else (st.1.addNode src2 pt, st.2.1, st.2.2)

/-- The body of step 3's edge loop (lines 242-257), threading the graph,
the BFS queue and the visited set; the edge is `(e.1, e.2.1, e.2.2)` and
`src2` is its endpoint other than `src1`. -/
def stage1Step3Edge (src1 : Src) (pt : PType)
    (st : S1Graph × List Src × List Src) (e : Src × Src × Rel) :
    S1Graph × List Src × List Src :=
  if e.2.2 = Rel.SUBSUM ∨ e.2.2 = Rel.COREF then
    if (stage1Step3AddNode (if src1 = e.1 then e.2.1 else e.1) pt st).1.typeOf
        (if src1 = e.1 then e.2.1 else e.1) = some pt then
      ((dag_add_edge
          (stage1Step3AddNode (if src1 = e.1 then e.2.1 else e.1) pt st).1
          e.1 e.2.1 e.2.2).2,
        (stage1Step3AddNode (if src1 = e.1 then e.2.1 else e.1) pt st).2.1,
        (stage1Step3AddNode (if src1 = e.1 then e.2.1 else e.1) pt st).2.2)
    else stage1Step3AddNode (if src1 = e.1 then e.2.1 else e.1) pt st
  else st

/-- The `while bfs_queue` loop of step 3 (lines 229-257), with explicit
fuel.  The caller passes fuel equal to the initial queue length, which is
exact: the enqueue branch is unreachable (see `stage1Step3_queue_stable`),
so the queue only shrinks. -/
def stage1Step3Loop (doc : TokenRel) : Nat → List Src → List Src → S1Graph → S1Graph
  | 0, _, _, g => g
  | _ + 1, [], _, g => g
  | fuel + 1, src1 :: queue, visited, g =>
    match g.typeOf src1 with
    | none => stage1Step3Loop doc fuel queue visited g
    | some pt =>
      if pt = PType.OTHER then
        stage1Step3Loop doc fuel queue visited g
      else
        let st := (s3edges doc src1).foldl (stage1Step3Edge src1 pt) (g, queue, visited)
        stage1Step3Loop doc fuel st.2.1 st.2.2 st.1

/-- Step 3 (lines 227-257): BFS propagation of types over SUBSUM/COREF
edges, seeded with every current node. -/
def stage1Step3 (doc : TokenRel) (g : S1Graph) : S1Graph :=
  stage1Step3Loop doc g.nodes.length g.srcs g.srcs g

/-- Step 4 (lines 259-261): drop OTHER nodes and their incident edges
(`remove_nodes_from` removes incident edges too). -/
def stage1Step4 (g : S1Graph) : S1Graph :=
  let keep := g.nodes.filter fun n => n.ptype ≠ PType.OTHER
  let keptSrcs := keep.map (·.src)
  ⟨keep, g.edges.filter fun e => e.src ∈ keptSrcs ∧ e.dst ∈ keptSrcs⟩

/-- COREF targets of a node: `stage1_graph.out_edges(src)` filtered to
COREF (lines 274-275). -/
def corefTargets (g : S1Graph) (src : Src) : List Src :=
  g.edges.filterMap fun e =>
    if e.src = src ∧ e.relationship = Rel.COREF then some e.dst else none

/-- Write the two normalization attributes of one node. -/
def S1Graph.setNorm (g : S1Graph) (src : Src) (terms : List String)
    (coref : List Src) : S1Graph :=
  { g with nodes := g.nodes.map fun n =>
      if n.src = src then { n with normalized_terms := terms, coref_main := coref } else n }

/-- The coreference-main accumulation over a node's COREF targets (lines
272-277): `coref_main.update(stage1_graph.nodes[ref_src]["coref_main"] or
[ref_src])` for each COREF out-edge. -/
def corefMainAt (g : S1Graph) (src : Src) : List Src :=
  (corefTargets g src).foldl (fun acc ref =>
    unionSet acc (if g.corefOf ref = [] then [ref] else g.corefOf ref)) []

/-- Step 5 body for one node (lines 265-319).  `normalize` is the external
composition of the phrase expander, the rule-based normalizers, the entity
matcher and the phrase simplifier: it returns the concatenation, over the
expanded phrases of the node's token, of the term lists each phrase
contributes.  Line 278 updates the node's own (freshly emptied)
`normalized_terms` set with itself — a no-op — so a coreferring node keeps
an empty normalized-term set. -/
def stage1Step5Node (normalize : Src → List String) (g : S1Graph) (src : Src) :
    S1Graph :=
  if corefMainAt g src ≠ [] then
    g.setNorm src [] (corefMainAt g src)
  else
    g.setNorm src ((normalize src).foldl insSet []) [src]

/-- Step 5 (lines 263-319): normalize each node, following the processing
order `reversed(list(nx.topological_sort(stage1_graph)))`.  The
`networkx` sort is external; the builder receives the resulting `order`,
and the theorems assume of it exactly what `networkx` guarantees. -/
def stage1Step5 (normalize : Src → List String) (order : List Src)
    (g : S1Graph) : S1Graph :=
  order.foldl (stage1Step5Node normalize) g

/-- The whole stage-1 builder (lines 160-321). -/
def buildStage1 (doc : TokenRel) (classify : String → String)
    (purposeText : Src → String) (normalize : Src → List String)
    (order : List Src) : S1Graph :=
  stage1Step5 normalize order
    (stage1Step4
      (stage1Step3 doc
        (stage1Step2_5 doc classify purposeText
          (stage1Step2 doc
            (stage1Step1 doc)))))

/-! ## Stage-2 builder (`GraphBuilder.__build_graph_stage2`)

A `networkx.MultiDiGraph` over canonical-term strings, with edges keyed by
relationship label and carrying `sources`, `text` and (for COLLECT)
`purposes` attribute lists. -/

/-- A stage-2 edge, keyed by `(src, dst, key)`, with its attributes. -/
structure S2Edge where
  src : String
  dst : String
  key : Rel
  sources : List (List Src)
  text : List String
  purposes : List (String × String)
deriving DecidableEq, Repr

/-- The stage-2 multigraph. -/
structure S2Graph where
  nodes : List (String × PType)
  edges : List S2Edge
deriving DecidableEq, Repr

namespace S2Graph

/-- Underlying adjacency of the multigraph. -/
def adj (g : S2Graph) : List (String × String) :=
  g.edges.map fun e => (e.src, e.dst)

/-- `stage2_graph.add_node(t, type=pt)` (via `add_nodes_from`): insert, or
update the `type` attribute of an existing node. -/
def addNode (g : S2Graph) (t : String) (pt : PType) : S2Graph :=
  if g.nodes.any fun n => n.1 = t then
    { g with nodes := g.nodes.map fun n => if n.1 = t then (n.1, pt) else n }
  else
    { g with nodes := g.nodes ++ [(t, pt)] }

/-- `stage2_graph.nodes[t]["type"]`. -/
def typeOf (g : S2Graph) (t : String) : Option PType :=
  (g.nodes.find? fun n => n.1 = t).map (·.2)

/-- `stage2_graph.has_edge(n1, n2, key=rel)`. -/
def hasEdge (g : S2Graph) (n1 n2 : String) (k : Rel) : Bool :=
  g.edges.any fun e => e.src = n1 ∧ e.dst = n2 ∧ e.key = k

/-- In-degree of a node (number of incident edge entries). -/
def inDeg (g : S2Graph) (t : String) : Nat :=
  (g.edges.filter fun e => e.dst = t).length

/-- Out-degree of a node. -/
def outDeg (g : S2Graph) (t : String) : Nat :=
  (g.edges.filter fun e => e.src = t).length

/-- `stage2_graph.remove_node(t)`: drop the node and its incident edges. -/
def removeNode (g : S2Graph) (t : String) : S2Graph :=
  ⟨g.nodes.filter fun n => n.1 ≠ t,
   g.edges.filter fun e => e.src ≠ t ∧ e.dst ≠ t⟩

/-- Append provenance to the `(n1, n2, k)` edge: one `sources` entry, one
`text` entry, and — for COLLECT — the contributing purposes (lines
359-363). -/
def appendEdgeData (g : S2Graph) (n1 n2 : String) (k : Rel)
    (srcList : List Src) (txt : String) (ps : List (String × String)) : S2Graph :=
  { g with edges := g.edges.map fun e =>
      if e.src = n1 ∧ e.dst = n2 ∧ e.key = k then
        { e with
          sources := e.sources ++ [srcList]
          text := e.text ++ [txt]
          purposes := if k = Rel.COLLECT then e.purposes ++ ps else e.purposes }
      else e }

end S2Graph

/-- `dag_add_edge(stage2_graph, n1, n2, key=rel, sources=[], text=[])`
(line 353), followed on success by the `purposes = []` initialization for
COLLECT keys (lines 354-355; the model initializes the unused field to `[]`
for every key).  The endpoint terms are already nodes of the graph — every
normalized term was added at lines 326-327 — so `add_edge`'s implicit node
creation is not modelled. -/
def dag_add_edge2 (g : S2Graph) (n1 n2 : String) (k : Rel) : Bool × S2Graph :=
  if n1 = n2 ∨ n1 ∈ reachFrom g.adj n2 then
    (false, g)
  else
    (true, { g with edges := g.edges ++ [⟨n1, n2, k, [], [], []⟩] })

/-- `stage1_graph.nodes[i]["coref_main"]` as used by stage 2 (lines
335-336). -/
def corefMainOf (s1 : S1Graph) (src : Src) : List Src :=
  s1.corefOf src

/-- `set.union(*(stage1_graph.nodes[i]["normalized_terms"] for i in cm))`
(lines 338-339).  Python raises `TypeError` when `cm` is empty (no set to
call `union` on); the model returns `[]` there, and the coref-main
non-emptiness invariant keeps that branch unreachable. -/
def ntermsUnion (s1 : S1Graph) (cm : List Src) : List String :=
  cm.foldl (fun acc i => unionSet acc (s1.termsOf i)) []

/-- Insertion sort on source identifiers, modelling `sorted(edge_sources)`. -/
def insertSorted (a : Src) : List Src → List Src
  | [] => [a]
  | b :: bs =>
    if a.1 < b.1 ∨ (a.1 = b.1 ∧ a.2 ≤ b.2) then a :: b :: bs
    else b :: insertSorted a bs

/-- `sorted` on a list of source identifiers. -/
def sortSrcs (l : List Src) : List Src :=
  l.foldr insertSorted []

/-- The cross-product pairs of canonical terms a stage-1 edge projects to
(line 351). -/
def s1EdgePairs (s1 : S1Graph) (e : S1Edge) : List (String × String) :=
  listProd (ntermsUnion s1 (corefMainOf s1 e.src))
    (ntermsUnion s1 (corefMainOf s1 e.dst))

/-- Processing of one canonical-term pair of the cross product (lines
352-363): on the first occurrence of the `(n1, n2, r)` key insert the
aggregated edge through the DAG-safe inserter — skipping the pair when the
insertion is rejected — then append provenance, text and (for COLLECT)
the contributing purposes. -/
def stage2PairStep (r : Rel) (srcList : List Src) (txt : String)
    (purp : List (String × String)) (g : S2Graph) (p : String × String) :
    S2Graph :=
  if g.hasEdge p.1 p.2 r then
    g.appendEdgeData p.1 p.2 r srcList txt purp
  else if (dag_add_edge2 g p.1 p.2 r).1 then
    (dag_add_edge2 g p.1 p.2 r).2.appendEdgeData p.1 p.2 r srcList txt purp
  else g

/-- Processing of one stage-1 edge by the stage-2 loop (lines 329-363).
`edgeText` abstracts the sentence gathering of lines 342-349 (locating, in
the document, every sentence containing a token of the edge's source set
and joining them with a separator). -/
def stage2ProcessEdge (edgeText : List Src → String) (s1 : S1Graph)
    (g : S2Graph) (e : S1Edge) : S2Graph :=
  if e.relationship = Rel.COREF then g
  else
    let corefSrc1 := corefMainOf s1 e.src
    let corefSrc2 := corefMainOf s1 e.dst
    let normalizedTerms1 := ntermsUnion s1 corefSrc1
    let normalizedTerms2 := ntermsUnion s1 corefSrc2
    let edgeSources := unionSet corefSrc1 corefSrc2
    let txt := edgeText edgeSources
    (listProd normalizedTerms1 normalizedTerms2).foldl
      (stage2PairStep e.relationship (sortSrcs edgeSources) txt
        (if e.relationship = Rel.COLLECT then e.purposes else [])) g

/-- The node-projection pass of stage 2 (lines 326-327): every stage-1 node
contributes its normalized terms as nodes carrying its semantic type,
later contributions overwriting the `type` attribute of an existing node. -/
def stage2Nodes (s1 : S1Graph) : S2Graph :=
  s1.nodes.foldl (fun g n =>
    n.normalized_terms.foldl (fun g t => g.addNode t n.ptype) g) ⟨[], []⟩

/-- The post-processing edge removals (lines 365-377): drop every inbound
edge of the sentinel terms "first party"/"third party", and every outbound
SUBSUM edge of "UNSPECIFIC_DATA"/"UNSPECIFIC_ENTITY". -/
def stage2Post (g : S2Graph) : S2Graph :=
  { g with edges := g.edges.filter fun e =>
      ¬ (e.dst = "first party" ∨ e.dst = "third party") ∧
      ¬ ((e.src = "UNSPECIFIC_DATA" ∨ e.src = "UNSPECIFIC_ENTITY") ∧ e.key = Rel.SUBSUM) }

/-- The pruning loop (lines 379-381): walk a snapshot of the node list and
remove every node whose in- and out-degree are both zero at visit time. -/
def prune (g : S2Graph) : S2Graph :=
  g.nodes.foldl (fun g' n =>
    if g'.inDeg n.1 = 0 ∧ g'.outDeg n.1 = 0 then g'.removeNode n.1 else g') g

/-- The whole stage-2 builder (lines 323-383). -/
def buildStage2 (edgeText : List Src → String) (s1 : S1Graph) : S2Graph :=
  prune (stage2Post (s1.edges.foldl (stage2ProcessEdge edgeText s1) (stage2Nodes s1)))

/-- `build_graph` (lines 155-158): stage 1 then stage 2. -/
def build_graph (doc : TokenRel) (classify : String → String)
    (purposeText : Src → String) (normalize : Src → List String)
    (order : List Src) (edgeText : List Src → String) : S2Graph :=
  buildStage2 edgeText (buildStage1 doc classify purposeText normalize order)

/-! ## The corpus loop of `main` (lines 437-448)

`for d in args.workdirs:` loads, builds and serializes each input
directory in turn.  The body has no `try`/`except`: an exception raised
while processing one directory propagates out of the loop.  Loading,
building and writing are abstracted into one fallible `processDoc`
service; the result collects the directories processed so far. -/

/-- The per-directory loop of `main`.  On success of every body the run
returns the processed directories; the first exception aborts the whole
loop, leaving the remaining directories unprocessed. -/
def mainRun (processDoc : String → Except String Unit) :
    List String → Except String (List String)
  | [] => Except.ok []
  | d :: rest =>
    match processDoc d with
    | Except.error e => Except.error e
    | Except.ok _ =>
      match mainRun processDoc rest with
      | Except.error e => Except.error e
      | Except.ok l => Except.ok (d :: l)

/-! ## Boundary cleanup of `expand_phrase` (lines 88-99)

After the left/right expansion computed a candidate span
`doc[left_idx:right_idx]`, the function retracts a trailing coordinating
conjunction once, then strips quote/bracket characters from both
boundaries.  Tokens are modelled by the two attributes the cleanup reads. -/

/-- A token as seen by the boundary cleanup: its `lemma_` and `dep_`. -/
structure Tok where
  lemma_ : String
  dep_ : String
deriving DecidableEq, Repr

/-- Is `needle` a contiguous run of `hay` starting at its head? -/
def leadMatch : List Char → List Char → Bool
  | [], _ => true
  | _ :: _, [] => false
  | a :: as, b :: bs => a = b && leadMatch as bs

/-- Python's `needle in hay` on strings: substring containment. -/
def pyInStr (needle hay : String) : Bool :=
  go needle.toList hay.toList
where
  go (n : List Char) : List Char → Bool
    | [] => leadMatch n []
    | h@(_ :: t) => leadMatch n h || go n t

/-- `doc[i]` for the cleanup (reads within the span; an out-of-range read
would raise `IndexError` in Python — see the loop guards below). -/
def tokAt (doc : List Tok) (i : Nat) : Tok :=
  doc.getD i ⟨"", ""⟩

/-- `while doc[left_idx].lemma_ in '"\'([': left_idx += 1` (lines 93-94).
The fuel equals `doc.length`, enough for every in-range run; the loop
stops at an out-of-range index where Python would raise `IndexError`. -/
def stripLeft (doc : List Tok) : Nat → Nat → Nat
  | 0, l => l
  | fuel + 1, l =>
    if l < doc.length ∧ pyInStr (tokAt doc l).lemma_ "\"'([" then
      stripLeft doc fuel (l + 1)
    else l

/-- `while doc[right_idx - 1].lemma_ in '"\')]': right_idx -= 1` (lines
96-97).  Stops at `right = 0`, where Python's `doc[-1]` would wrap around
to the last token. -/
def stripRight (doc : List Tok) : Nat → Nat → Nat
  | 0, r => r
  | fuel + 1, r =>
    if 1 ≤ r ∧ r - 1 < doc.length ∧ pyInStr (tokAt doc (r - 1)).lemma_ "\"')]" then
      stripRight doc fuel (r - 1)
    else r

/-- The boundary cleanup (lines 88-99): retract a trailing coordinating
conjunction once, then strip surrounding quote/bracket characters; the
function yields `doc[left:right]` for the returned bounds. -/
def cleanupBounds (doc : List Tok) (left right : Nat) : Nat × Nat :=
  let right1 := if (tokAt doc (right - 1)).dep_ = "cc" then right - 1 else right
  (stripLeft doc doc.length left, stripRight doc doc.length right1)

/-! ## Specification-side characterizations

Definitions below restate claimed properties so the theorems can compare
them with the embedded code; they are not translations of further source
lines. -/

/-- The type the last stage-1 node (in node-list order) whose
normalized-term set contains `t` would write for `t` — the
"last writer wins" characterization of the stage-2 node projection. -/
def lastContributor (s1 : S1Graph) (t : String) : Option PType :=
  s1.nodes.foldl (fun acc n => if t ∈ n.normalized_terms then some n.ptype else acc) none

/-- Total number of (purpose-category, purpose-text) pairs carried by the
COLLECT edges of `es` whose term-pair cross product contains `(n1, n2)` —
the collapsed-purpose count a stage-2 COLLECT edge should accumulate. -/
def collectTotal (s1 : S1Graph) (es : List S1Edge) (n1 n2 : String) : Nat :=
  ((es.filter fun e =>
      e.relationship = Rel.COLLECT ∧ (n1, n2) ∈ s1EdgePairs s1 e).map
    fun e => e.purposes.length).sum

/-- Decidable statement that `rest`, processed after `done`, is a valid
tail of a reverse-topological processing order for the COREF edges of `g`:
each node's COREF targets precede it. -/
def topoOk (g : S1Graph) : List Src → List Src → Bool
  | _, [] => true
  | done, s :: rest =>
    ((corefTargets g s).all fun t => t ∈ done) && topoOk g (done ++ [s]) rest

/-! # Theorems

Helper lemmas about the embedded operations, followed by the claim
theorems. -/

section SetOpsTheorems

variable {α : Type} [DecidableEq α]

theorem mem_insSet {l : List α} {a x : α} :
    x ∈ insSet l a ↔ x ∈ l ∨ x = a := by
  unfold insSet
  split
  · constructor
    · exact Or.inl
    · rintro (h | rfl) <;> assumption
  · simp

theorem subset_insSet (l : List α) (a : α) : l ⊆ insSet l a := by
  intro x hx
  exact mem_insSet.mpr (Or.inl hx)

theorem nodup_insSet {l : List α} (h : l.Nodup) (a : α) :
    (insSet l a).Nodup := by
  unfold insSet
  split
  · exact h
  · next hna =>
    rw [List.nodup_append]
    refine ⟨h, List.nodup_singleton _, ?_⟩
    intro x hx hxa
    rw [List.mem_singleton] at hxa
    exact hna (hxa ▸ hx)

theorem mem_unionSet {l m : List α} {x : α} :
    x ∈ unionSet l m ↔ x ∈ l ∨ x ∈ m := by
  induction m generalizing l with
  | nil => simp [unionSet]
  | cons b bs ih =>
    unfold unionSet at ih ⊢
    simp only [List.foldl_cons]
    rw [ih]
    rw [mem_insSet]
    constructor
    · rintro ((h | rfl) | h)
      · exact Or.inl h
      · exact Or.inr (List.mem_cons_self _ _)
      · exact Or.inr (List.mem_cons_of_mem _ h)
    · rintro (h | h)
      · exact Or.inl (Or.inl h)
      · rcases List.mem_cons.mp h with rfl | h
        · exact Or.inl (Or.inr rfl)
        · exact Or.inr h

theorem nodup_unionSet {l m : List α} (h : l.Nodup) :
    (unionSet l m).Nodup := by
  induction m generalizing l with
  | nil => exact h
  | cons b bs ih =>
    unfold unionSet
    simp only [List.foldl_cons]
    exact ih (nodup_insSet h b)

theorem unionSet_ne_nil_of_right {l m : List α} (h : m ≠ []) :
    unionSet l m ≠ [] := by
  intro hcon
  rcases m with _ | ⟨b, bs⟩
  · exact h rfl
  · have : b ∈ unionSet l (b :: bs) :=
      mem_unionSet.mpr (Or.inr (List.mem_cons_self _ _))
    rw [hcon] at this
    exact List.not_mem_nil _ this

theorem mem_listProd {l m : List α} {p : α × α} :
    p ∈ listProd l m ↔ p.1 ∈ l ∧ p.2 ∈ m := by
  induction l with
  | nil => simp [listProd]
  | cons a as ih =>
    unfold listProd
    rw [List.mem_append, ih, List.mem_cons]
    constructor
    · rintro (h | ⟨h1, h2⟩)
      · rcases List.mem_map.mp h with ⟨y, hy, h⟩
        subst h
        exact ⟨Or.inl rfl, hy⟩
      · exact ⟨Or.inr h1, h2⟩
    · rintro ⟨h1 | h1, h2⟩
      · left
        exact List.mem_map.mpr ⟨p.2, h2, by rw [← h1]⟩
      · exact Or.inr ⟨h1, h2⟩

theorem nodup_listProd {l m : List α} (hl : l.Nodup) (hm : m.Nodup) :
    (listProd l m).Nodup := by
  induction l with
  | nil => exact List.nodup_nil
  | cons a as ih =>
    unfold listProd
    rw [List.nodup_append]
    rw [List.nodup_cons] at hl
    refine ⟨?_, ih hl.2, ?_⟩
    · exact hm.map fun x y h => by simpa using congrArg Prod.snd h
    · intro p hp hq
      rcases List.mem_map.mp hp with ⟨y, _, h⟩
      have hfst : p.1 = a := by rw [← h]
      have := (mem_listProd.mp hq).1
      rw [hfst] at this
      exact hl.1 this

end SetOpsTheorems

section ReachabilityTheorems

variable {α : Type} [DecidableEq α]

theorem Reach.refl (adj : List (α × α)) (a : α) : Reach adj a a :=
  Relation.ReflTransGen.refl

theorem Reach.tail {adj : List (α × α)} {a b c : α}
    (h : Reach adj a b) (e : (b, c) ∈ adj) : Reach adj a c :=
  Relation.ReflTransGen.tail h e

theorem Reach.head {adj : List (α × α)} {a b c : α}
    (e : (a, b) ∈ adj) (h : Reach adj b c) : Reach adj a c :=
  Relation.ReflTransGen.head e h

theorem Reach.trans {adj : List (α × α)} {a b c : α}
    (h1 : Reach adj a b) (h2 : Reach adj b c) : Reach adj a c :=
  Relation.ReflTransGen.trans h1 h2

theorem Reach.mono {adj adj' : List (α × α)} (hsub : adj ⊆ adj') {a b : α}
    (h : Reach adj a b) : Reach adj' a b :=
  Relation.ReflTransGen.mono (fun _ _ hxy => hsub hxy) h

theorem stepFold_front (l : List (α × α)) (s : List α) :
    s <+: stepFold l s := by
  induction l generalizing s with
  | nil => exact List.prefix_rfl
  | cons e es ih =>
    unfold stepFold
    simp only [List.foldl_cons]
    refine List.IsPrefix.trans ?_ (ih _)
    split
    · exact ⟨[e.2], rfl⟩
    · exact List.prefix_rfl

theorem stepFold_target_mem {l : List (α × α)} {s : List α} {e : α × α}
    (hel : e ∈ l) (h1 : e.1 ∈ s) : e.2 ∈ stepFold l s := by
  induction l generalizing s with
  | nil => cases hel
  | cons f fs ih =>
    unfold stepFold
    simp only [List.foldl_cons]
    rcases List.mem_cons.mp hel with rfl | hel
    · by_cases hc : e.1 ∈ s ∧ e.2 ∉ s
      · rw [if_pos hc]
        exact (stepFold_front fs _).subset (List.mem_append.mpr (Or.inr (by simp)))
      · have h2 : e.2 ∈ s := by
          rcases Classical.not_and_iff_or_not_not.mp hc with hc | hc
          · exact absurd h1 hc
          · exact not_not.mp hc
        split
        · exact (stepFold_front fs _).subset (List.mem_append.mpr (Or.inl h2))
        · exact (stepFold_front fs _).subset h2
    · split
      · exact ih hel ((List.mem_append.mpr (Or.inl h1)))
      · exact ih hel h1

theorem subset_stepClosure (adj : List (α × α)) (s : List α) :
    s ⊆ stepClosure adj s :=
  (stepFold_front adj s).subset

theorem nodup_stepFold {l : List (α × α)} {s : List α} (h : s.Nodup) :
    (stepFold l s).Nodup := by
  induction l generalizing s with
  | nil => exact h
  | cons e es ih =>
    unfold stepFold
    simp only [List.foldl_cons]
    apply ih
    split
    · next hcond =>
      rw [List.nodup_append]
      exact ⟨h, List.nodup_singleton _, by simpa using hcond.2⟩
    · exact h

theorem stepFold_subset {l : List (α × α)} {s : List α} :
    stepFold l s ⊆ s ++ l.map Prod.snd := by
  induction l generalizing s with
  | nil => simp [stepFold]
  | cons e es ih =>
    unfold stepFold
    simp only [List.foldl_cons]
    intro x hx
    split at hx
    · have := ih hx
      rcases List.mem_append.mp this with h | h
      · rcases List.mem_append.mp h with h | h
        · exact List.mem_append.mpr (Or.inl h)
        · have : x = e.2 := by simpa using h
          subst this
          exact List.mem_append.mpr (Or.inr (by simp))
      · exact List.mem_append.mpr (Or.inr (List.mem_cons_of_mem _ (by simpa using h)))
    · have := ih hx
      rcases List.mem_append.mp this with h | h
      · exact List.mem_append.mpr (Or.inl h)
      · exact List.mem_append.mpr (Or.inr (List.mem_cons_of_mem _ (by simpa using h)))

theorem stepFold_sound {adj : List (α × α)} {a : α} :
    ∀ {l : List (α × α)} {s : List α}, l ⊆ adj →
      (∀ x ∈ s, Reach adj a x) → ∀ x ∈ stepFold l s, Reach adj a x := by
  intro l
  induction l with
  | nil => intro s _ hs x hx; exact hs x hx
  | cons e es ih =>
    intro s hsub hs x hx
    unfold stepFold at hx
    simp only [List.foldl_cons] at hx
    refine ih (fun y hy => hsub (List.mem_cons_of_mem _ hy)) ?_ x hx
    intro y hy
    split at hy
    · next hcond =>
      rcases List.mem_append.mp hy with h | h
      · exact hs y h
      · have : y = e.2 := by simpa using h
        subst this
        exact (hs e.1 hcond.1).tail (hsub (List.mem_cons_self _ _))
    · exact hs y hy

/-- If every edge target is already present then one round changes nothing. -/
theorem stepClosure_eq_of_closed {adj : List (α × α)} {s : List α}
    (h : ∀ e ∈ adj, e.2 ∈ s) : stepClosure adj s = s := by
  unfold stepClosure stepFold
  induction adj generalizing s with
  | nil => rfl
  | cons e es ih =>
    simp only [List.foldl_cons]
    have he : e.2 ∈ s := h e (List.mem_cons_self _ _)
    rw [if_neg (by intro hc; exact hc.2 he)]
    exact ih fun f hf => h f (List.mem_cons_of_mem _ hf)

/-- If one saturation round is the identity, the set is closed under edges. -/
theorem closed_of_stepClosure_eq {adj : List (α × α)} {s : List α}
    (h : stepClosure adj s = s) :
    ∀ e ∈ adj, e.1 ∈ s → e.2 ∈ s := by
  intro e he h1
  have := stepFold_target_mem he h1 (l := adj)
  rwa [show stepFold adj s = s from h] at this

theorem iterClosure_succ_outer (adj : List (α × α)) (n : Nat) (s : List α) :
    iterClosure adj (n + 1) s = stepClosure adj (iterClosure adj n s) := by
  induction n generalizing s with
  | zero => rfl
  | succ m ih =>
    show iterClosure adj (m + 1) (stepClosure adj s) = _
    rw [ih]
    rfl

theorem subset_iterClosure (adj : List (α × α)) (n : Nat) (s : List α) :
    s ⊆ iterClosure adj n s := by
  induction n generalizing s with
  | zero => exact fun _ h => h
  | succ m ih =>
    exact fun x hx => ih (stepClosure adj s) (subset_stepClosure adj s hx)

theorem nodup_iterClosure {adj : List (α × α)} {s : List α} (h : s.Nodup)
    (n : Nat) : (iterClosure adj n s).Nodup := by
  induction n generalizing s with
  | zero => exact h
  | succ m ih => exact ih (nodup_stepFold h)

theorem iterClosure_sound {adj : List (α × α)} {a : α} {s : List α}
    (hs : ∀ x ∈ s, Reach adj a x) (n : Nat) :
    ∀ x ∈ iterClosure adj n s, Reach adj a x := by
  induction n generalizing s with
  | zero => exact hs
  | succ m ih =>
    exact ih (stepFold_sound (fun _ h => h) hs)

theorem iterClosure_subset {adj : List (α × α)} {s : List α} (n : Nat) :
    iterClosure adj n s ⊆ s ++ adj.map Prod.snd := by
  induction n generalizing s with
  | zero => exact fun x h => List.mem_append.mpr (Or.inl h)
  | succ m ih =>
    intro x hx
    have := ih (s := stepClosure adj s) hx
    rcases List.mem_append.mp this with h | h
    · exact stepFold_subset h
    · exact List.mem_append.mpr (Or.inr h)

theorem stepClosure_fix_persist {adj : List (α × α)} {s : List α}
    (h : stepClosure adj s = s) (n : Nat) : iterClosure adj n s = s := by
  induction n with
  | zero => rfl
  | succ m ih =>
    rw [iterClosure_succ_outer, ih, h]

theorem iterClosure_length_grow {adj : List (α × α)} {s : List α} (n : Nat)
    (h : ∀ k < n, stepClosure adj (iterClosure adj k s) ≠ iterClosure adj k s) :
    s.length + n ≤ (iterClosure adj n s).length := by
  induction n with
  | zero => simp [iterClosure]
  | succ m ih =>
    have hm : ∀ k < m, stepClosure adj (iterClosure adj k s) ≠ iterClosure adj k s :=
      fun k hk => h k (Nat.lt_succ_of_lt hk)
    have h1 := ih hm
    have hne := h m (Nat.lt_succ_self m)
    have hpre : iterClosure adj m s <+: stepClosure adj (iterClosure adj m s) :=
      stepFold_front adj _
    have hlt : (iterClosure adj m s).length < (stepClosure adj (iterClosure adj m s)).length := by
      rcases hpre with ⟨t, ht⟩
      rcases t with _ | ⟨b, bs⟩
      · exact absurd (by simpa using ht.symm) hne
      · rw [← ht]
        simp [Nat.lt_add_of_pos_right]
    rw [iterClosure_succ_outer]
    omega

/-- After `adj.length` saturation rounds starting from a singleton, the
computed set is a fixpoint of `stepClosure`. -/
theorem reachFrom_fix (adj : List (α × α)) (a : α) :
    stepClosure adj (reachFrom adj a) = reachFrom adj a := by
  by_cases hex : ∃ k < adj.length,
      stepClosure adj (iterClosure adj k [a]) = iterClosure adj k [a]
  · rcases hex with ⟨k, hk, hfix⟩
    unfold reachFrom
    have decomp : ∀ m, iterClosure adj (k + m) [a] = iterClosure adj k [a] := by
      intro m
      induction m with
      | zero => rfl
      | succ j ih =>
        have : k + (j + 1) = (k + j) + 1 := by omega
        rw [this, iterClosure_succ_outer, ih, hfix]
    have : iterClosure adj adj.length [a] = iterClosure adj k [a] := by
      have hsplit : adj.length = k + (adj.length - k) := by omega
      rw [hsplit, decomp]
    rw [this, hfix]
  · push_neg at hex
    -- all rounds below adj.length grow the set strictly; counting forces the
    -- final set to contain every edge target, hence to be closed
    have hlen : 1 + adj.length ≤ (iterClosure adj adj.length [a]).length := by
      have := @iterClosure_length_grow _ _ adj [a] adj.length (fun k hk => hex k hk)
      simpa using this
    have hnd : (iterClosure adj adj.length [a]).Nodup :=
      nodup_iterClosure (List.nodup_singleton a) _
    have hsub : iterClosure adj adj.length [a] ⊆ a :: adj.map Prod.snd := by
      intro x hx
      have := iterClosure_subset adj.length hx
      simpa using this
    -- every target of an edge already belongs to the computed set
    have htargets : ∀ e ∈ adj, e.2 ∈ iterClosure adj adj.length [a] := by
      intro e he
      by_contra hmem
      have hcard : ((iterClosure adj adj.length [a]).toFinset : Finset α).card
          = (iterClosure adj adj.length [a]).length :=
        List.toFinset_card_of_nodup hnd
      have hsubF : (iterClosure adj adj.length [a]).toFinset ⊆
          ((a :: adj.map Prod.snd).toFinset : Finset α) := by
        intro x hx
        rw [List.mem_toFinset] at *
        exact hsub hx
      have hstrict : (iterClosure adj adj.length [a]).toFinset ⊂
          ((a :: adj.map Prod.snd).toFinset : Finset α) := by
        refine ⟨hsubF, ?_⟩
        intro hback
        apply hmem
        rw [← List.mem_toFinset]
        apply hback
        rw [List.mem_toFinset]
        exact List.mem_cons_of_mem _ (List.mem_map.mpr ⟨e, he, rfl⟩)
      have hcardlt := Finset.card_lt_card hstrict
      have hbound := List.toFinset_card_le (a :: adj.map Prod.snd)
      simp only [List.length_cons, List.length_map] at hbound
      omega
    exact stepClosure_eq_of_closed htargets

/-- Correctness of the executable reachability set: membership coincides
with the existence of a directed path. -/
theorem mem_reachFrom {adj : List (α × α)} {a b : α} :
    b ∈ reachFrom adj a ↔ Reach adj a b := by
  constructor
  · intro h
    refine iterClosure_sound ?_ adj.length b h
    intro x hx
    have : x = a := by simpa using hx
    subst this
    exact Reach.refl adj _
  · intro h
    have hclosed := closed_of_stepClosure_eq (reachFrom_fix adj a)
    have ha : a ∈ reachFrom adj a :=
      subset_iterClosure adj adj.length [a] (by simp)
    induction h with
    | refl => exact ha
    | tail _ he ih => exact hclosed _ he ih

theorem Acyclic.nil : Acyclic ([] : List (α × α)) := by
  intro a b h
  cases h

theorem Acyclic.sublist {adj adj' : List (α × α)} (hsub : adj' ⊆ adj)
    (h : Acyclic adj) : Acyclic adj' := by
  intro a b hab hr
  exact h a b (hsub hab) (hr.mono hsub)

/-- Decomposition of reachability after appending one edge whose insertion
does not close a cycle. -/
theorem reach_append_single {adj : List (α × α)} {u v : α}
    (hvu : ¬ Reach adj v u) {x y : α}
    (h : Reach (adj ++ [(u, v)]) x y) :
    Reach adj x y ∨ (Reach adj x u ∧ Reach adj v y) := by
  induction h with
  | refl => exact Or.inl (Reach.refl adj x)
  | tail hxb he ih =>
    rename_i b c
    rcases List.mem_append.mp he with he | he
    · rcases ih with h1 | ⟨h1, h2⟩
      · exact Or.inl (h1.tail he)
      · exact Or.inr ⟨h1, h2.tail he⟩
    · have heq : (b, c) = (u, v) := by simpa using he
      have h1 : b = u := congrArg Prod.fst heq
      have h2 : c = v := congrArg Prod.snd heq
      subst h1
      subst h2
      rcases ih with h1 | ⟨h1, h2⟩
      · exact Or.inr ⟨h1, Reach.refl adj _⟩
      · exact absurd h2 hvu

/-- Appending an edge that passes the `dag_add_edge` test keeps the graph
acyclic. -/
theorem Acyclic.append_single {adj : List (α × α)} {u v : α}
    (h : Acyclic adj) (huv : u ≠ v) (hvu : ¬ Reach adj v u) :
    Acyclic (adj ++ [(u, v)]) := by
  intro a b hab hr
  rcases List.mem_append.mp hab with hmem | hmem
  · rcases reach_append_single hvu hr with h1 | ⟨h1, h2⟩
    · exact h a b hmem h1
    · -- b reaches u and v reaches a; with the edge (a,b) this closes v ⇝ u
      exact hvu ((h2.tail hmem).trans h1)
  · have heq : (a, b) = (u, v) := by simpa using hmem
    have h1 : a = u := congrArg Prod.fst heq
    have h2 : b = v := congrArg Prod.snd heq
    subst h1
    subst h2
    rcases reach_append_single hvu hr with h1 | ⟨h1, h2⟩
    · exact hvu h1
    · exact hvu h1


end ReachabilityTheorems

theorem S1Graph.adj_addEdge_of_present {g : S1Graph} {u v : Src} {r : Rel}
    (h : g.edges.any fun e => e.src = u ∧ e.dst = v) :
    (g.addEdge u v r).adj = g.adj := by
  unfold addEdge
  rw [if_pos h]
  unfold adj
  simp only [List.map_map]
  apply List.map_congr_left
  intro e _
  by_cases hc : e.src = u ∧ e.dst = v
  · simp [hc]
  · simp [hc]

theorem S1Graph.adj_addEdge_of_absent {g : S1Graph} {u v : Src} {r : Rel}
    (h : ¬ g.edges.any fun e => e.src = u ∧ e.dst = v) :
    (g.addEdge u v r).adj = g.adj ++ [(u, v)] := by
  unfold addEdge
  rw [if_neg h]
  unfold adj
  simp

theorem S1Graph.mem_adj_addEdge {g : S1Graph} {u v : Src} {r : Rel} {p : Src × Src} :
    p ∈ (g.addEdge u v r).adj ↔ p ∈ g.adj ∨ p = (u, v) := by
  by_cases h : g.edges.any fun e => e.src = u ∧ e.dst = v
  · rw [adj_addEdge_of_present h]
    constructor
    · exact Or.inl
    · rintro (hp | rfl)
      · exact hp
      · rw [List.any_eq_true] at h
        rcases h with ⟨e, he, hc⟩
        simp only [decide_eq_true_eq] at hc
        have : (e.src, e.dst) ∈ g.adj := List.mem_map.mpr ⟨e, he, rfl⟩
        rwa [hc.1, hc.2] at this
  · rw [adj_addEdge_of_absent h]
    simp

/-- Acyclicity is preserved by any `dag_add_edge` call. -/
theorem dag_add_edge_acyclic {g : S1Graph} {u v : Src} {r : Rel}
    (h : Acyclic g.adj) : Acyclic (dag_add_edge g u v r).2.adj := by
  unfold dag_add_edge
  split
  · exact h
  · next hcond =>
    push_neg at hcond
    by_cases hpres : g.edges.any fun e => e.src = u ∧ e.dst = v
    · rw [S1Graph.adj_addEdge_of_present hpres]
      exact h
    · rw [S1Graph.adj_addEdge_of_absent hpres]
      exact h.append_single hcond.1 (fun hr => hcond.2 (mem_reachFrom.mpr hr))

theorem S1Graph.addEdge_nodes (g : S1Graph) (u v : Src) (r : Rel) :
    (g.addEdge u v r).nodes = g.nodes := by
  unfold addEdge
  split <;> rfl

/-- C3 — `dag_add_edge(G, u, v)` rejects and leaves `G` unchanged exactly
when `u = v` or a directed path from `v` to `u` exists; otherwise it
returns success and inserts exactly the edge `u → v`.  In particular,
inserting `A → B` into a fresh two-node graph succeeds, and the subsequent
attempt `B → A` is rejected with the first edge left intact. -/
theorem claim_C3_dag_add_edge_contract (g : S1Graph) (u v : Src) (r : Rel)
    (hu : g.hasNode u = true) (hv : g.hasNode v = true) :
    ((u = v ∨ Reach g.adj v u) → dag_add_edge g u v r = (false, g)) ∧
    (¬ (u = v ∨ Reach g.adj v u) →
      (dag_add_edge g u v r).1 = true ∧
      (dag_add_edge g u v r).2.nodes = g.nodes ∧
      (∀ p : Src × Src, p ∈ (dag_add_edge g u v r).2.adj ↔ p ∈ g.adj ∨ p = (u, v))) ∧
    (u ≠ v →
      (dag_add_edge (⟨[⟨u, PType.ACTOR, [], []⟩, ⟨v, PType.ACTOR, [], []⟩], []⟩ : S1Graph)
          u v r).1 = true ∧
      dag_add_edge
          (dag_add_edge (⟨[⟨u, PType.ACTOR, [], []⟩, ⟨v, PType.ACTOR, [], []⟩], []⟩ : S1Graph)
            u v r).2 v u r
        = (false,
          (dag_add_edge (⟨[⟨u, PType.ACTOR, [], []⟩, ⟨v, PType.ACTOR, [], []⟩], []⟩ : S1Graph)
            u v r).2) ∧
      (u, v) ∈
        (dag_add_edge (⟨[⟨u, PType.ACTOR, [], []⟩, ⟨v, PType.ACTOR, [], []⟩], []⟩ : S1Graph)
          u v r).2.adj) := by
  refine ⟨?_, ?_, ?_⟩
  · intro h
    unfold dag_add_edge
    rw [if_pos]
    rcases h with h | h
    · exact Or.inl h
    · exact Or.inr (mem_reachFrom.mpr h)
  · intro h
    have hcond : ¬ (u = v ∨ u ∈ reachFrom g.adj v) := by
      rintro (h1 | h2)
      · exact h (Or.inl h1)
      · exact h (Or.inr (mem_reachFrom.mp h2))
    unfold dag_add_edge
    rw [if_neg hcond]
    exact ⟨rfl, S1Graph.addEdge_nodes g u v r, fun p => S1Graph.mem_adj_addEdge⟩
  · intro hne
    set g0 : S1Graph := ⟨[⟨u, PType.ACTOR, [], []⟩, ⟨v, PType.ACTOR, [], []⟩], []⟩ with hg0
    have hadj0 : g0.adj = [] := rfl
    have hcond0 : ¬ (u = v ∨ u ∈ reachFrom g0.adj v) := by
      rintro (h1 | h2)
      · exact hne h1
      · rw [hadj0] at h2
        have : Reach ([] : List (Src × Src)) v u := mem_reachFrom.mp h2
        rcases Relation.ReflTransGen.cases_head this with h | ⟨c, hc, _⟩
        · exact hne h.symm
        · cases hc
    have h1 : dag_add_edge g0 u v r = (true, g0.addEdge u v r) := by
      unfold dag_add_edge
      rw [if_neg hcond0]
    have habs : ¬ g0.edges.any fun e => e.src = u ∧ e.dst = v := by
      intro h
      rw [List.any_eq_true] at h
      rcases h with ⟨e, he, _⟩
      cases he
    have hadj1 : (g0.addEdge u v r).adj = [(u, v)] := by
      rw [S1Graph.adj_addEdge_of_absent habs, hadj0]
      rfl
    have hr1 : v ∈ reachFrom (g0.addEdge u v r).adj u := by
      rw [mem_reachFrom, hadj1]
      exact Reach.head (List.mem_singleton_self _) (Reach.refl _ _)
    have h2 : dag_add_edge (g0.addEdge u v r) v u r = (false, g0.addEdge u v r) := by
      unfold dag_add_edge
      rw [if_pos (Or.inr hr1)]
    rw [h1]
    refine ⟨rfl, h2, ?_⟩
    rw [hadj1]
    exact List.mem_singleton_self _

/-- Witness for C3 at a concrete two-node graph. -/
theorem claim_C3_dag_add_edge_contract_witness :
    (⟨[⟨(0, 0), PType.ACTOR, [], []⟩, ⟨(0, 1), PType.ACTOR, [], []⟩], []⟩ : S1Graph).hasNode (0, 0) = true ∧
    (⟨[⟨(0, 0), PType.ACTOR, [], []⟩, ⟨(0, 1), PType.ACTOR, [], []⟩], []⟩ : S1Graph).hasNode (0, 1) = true ∧
    ((dag_add_edge (⟨[⟨(0, 0), PType.ACTOR, [], []⟩, ⟨(0, 1), PType.ACTOR, [], []⟩], []⟩ : S1Graph)
        (0, 0) (0, 1) Rel.SUBSUM).1 = true ∧
      dag_add_edge
          (dag_add_edge (⟨[⟨(0, 0), PType.ACTOR, [], []⟩, ⟨(0, 1), PType.ACTOR, [], []⟩], []⟩ : S1Graph)
            (0, 0) (0, 1) Rel.SUBSUM).2 (0, 1) (0, 0) Rel.SUBSUM
        = (false,
          (dag_add_edge (⟨[⟨(0, 0), PType.ACTOR, [], []⟩, ⟨(0, 1), PType.ACTOR, [], []⟩], []⟩ : S1Graph)
            (0, 0) (0, 1) Rel.SUBSUM).2) ∧
      ((0, 0), (0, 1)) ∈
        (dag_add_edge (⟨[⟨(0, 0), PType.ACTOR, [], []⟩, ⟨(0, 1), PType.ACTOR, [], []⟩], []⟩ : S1Graph)
          (0, 0) (0, 1) Rel.SUBSUM).2.adj) :=
  ⟨by decide, by decide,
    (claim_C3_dag_add_edge_contract
      (⟨[⟨(0, 0), PType.ACTOR, [], []⟩, ⟨(0, 1), PType.ACTOR, [], []⟩], []⟩ : S1Graph)
      (0, 0) (0, 1) Rel.SUBSUM (by decide) (by decide)).2.2 (by decide)⟩

/-- C7 — the corpus loop of `main` has no per-document exception handler:
a failure while processing the first directory aborts the whole run (the
result is the propagated error, not a success that skipped the bad
document), while the same corpus without the bad directory processes
fine.  This contradicts the claimed catch-log-continue behaviour. -/
theorem claim_C7_main_loop_aborts :
    mainRun (fun d => if d = "bad" then Except.error "crash" else Except.ok ())
        ["bad", "good"] = Except.error "crash" ∧
    mainRun (fun d => if d = "bad" then Except.error "crash" else Except.ok ())
        ["good"] = Except.ok ["good"] := by
  exact ⟨rfl, rfl⟩

/-- C1 — in stage-1 normalization, a node with an outgoing COREF edge ends
with an *empty* normalized-term set, not the union of its coreference
targets' sets: line 278 updates the node's own freshly-emptied set with
itself instead of copying from the referred node (contradicting the
comment on line 276).  Concretely, for a two-node document where `(0,0)`
COREFs to `(0,1)` and the normalizers give `(0,1)` the term "email", the
coreferring node's normalized-term set is `[]` while the union over its
coreference-main targets is `["email"]`. -/
theorem claim_C1_coref_terms_not_copied :
    (buildStage1
        ⟨[(0, 0), (0, 1)], [((0, 0), (0, 1), Rel.COREF)], fun _ => EntType.DATA⟩
        (fun _ => "") (fun _ => "")
        (fun s => if s = (0, 1) then ["email"] else ["self"])
        [(0, 1), (0, 0)]).termsOf (0, 0) = [] ∧
    (buildStage1
        ⟨[(0, 0), (0, 1)], [((0, 0), (0, 1), Rel.COREF)], fun _ => EntType.DATA⟩
        (fun _ => "") (fun _ => "")
        (fun s => if s = (0, 1) then ["email"] else ["self"])
        [(0, 1), (0, 0)]).corefOf (0, 0) = [(0, 1)] ∧
    ntermsUnion
      (buildStage1
        ⟨[(0, 0), (0, 1)], [((0, 0), (0, 1), Rel.COREF)], fun _ => EntType.DATA⟩
        (fun _ => "") (fun _ => "")
        (fun s => if s = (0, 1) then ["email"] else ["self"])
        [(0, 1), (0, 0)])
      ((buildStage1
        ⟨[(0, 0), (0, 1)], [((0, 0), (0, 1), Rel.COREF)], fun _ => EntType.DATA⟩
        (fun _ => "") (fun _ => "")
        (fun s => if s = (0, 1) then ["email"] else ["self"])
        [(0, 1), (0, 0)]).corefOf (0, 0)) = ["email"] := by
  refine ⟨?_, ?_, ?_⟩ <;> decide

/-- C4 — the SUBSUM/COREF propagation never enqueues a newly typed
neighbor: line 250 tests `src2 in visited_nodes` instead of `not in`, so
the enqueue branch is dead and a type propagates only one hop from the
typed seeds.  For a chain `(0,0) ⊑ (0,1) ⊑ (0,2)` with only `(0,0)` typed,
the middle node inherits DATA but the far node is never added to the
stage-1 graph, although the claim requires every chain-connected node to
inherit the type. -/
theorem claim_C4_bfs_neighbor_not_enqueued :
    (buildStage1
        ⟨[(0, 0), (0, 1), (0, 2)],
          [((0, 0), (0, 1), Rel.SUBSUM), ((0, 1), (0, 2), Rel.SUBSUM)],
          fun s => if s = (0, 0) then EntType.DATA else EntType.NN⟩
        (fun _ => "") (fun _ => "") (fun _ => ["t"])
        [(0, 1), (0, 0)]).typeOf (0, 1) = some PType.DATA ∧
    (buildStage1
        ⟨[(0, 0), (0, 1), (0, 2)],
          [((0, 0), (0, 1), Rel.SUBSUM), ((0, 1), (0, 2), Rel.SUBSUM)],
          fun s => if s = (0, 0) then EntType.DATA else EntType.NN⟩
        (fun _ => "") (fun _ => "") (fun _ => ["t"])
        [(0, 1), (0, 0)]).hasNode (0, 2) = false := by
  exact ⟨by decide, by decide⟩

theorem find?_map_of_pres {β : Type} (f : β → β) (p : β → Bool)
    (hf : ∀ b, p (f b) = p b) (l : List β) :
    (l.map f).find? p = (l.find? p).map f := by
  induction l with
  | nil => rfl
  | cons a l ih =>
    rw [List.map_cons]
    cases hpa : p a
    · rw [List.find?_cons_of_neg _ (by rw [hf]; simp [hpa]),
          List.find?_cons_of_neg _ (by simp [hpa]), ih]
    · rw [List.find?_cons_of_pos _ (by rw [hf]; exact hpa),
          List.find?_cons_of_pos _ hpa]
      rfl

theorem find?_append_eq {β : Type} (p : β → Bool) (l1 l2 : List β) :
    (l1 ++ l2).find? p = ((l1.find? p).orElse fun _ => l2.find? p) := by
  induction l1 with
  | nil => rfl
  | cons a l ih =>
    cases hpa : p a
    · rw [List.cons_append, List.find?_cons_of_neg _ (by simp [hpa]), ih,
          List.find?_cons_of_neg _ (by simp [hpa])]
    · rw [List.cons_append, List.find?_cons_of_pos _ hpa,
          List.find?_cons_of_pos _ hpa]
      rfl

theorem S2Graph.addNode_typeOf (g : S2Graph) (t : String) (pt : PType)
    (t' : String) :
    (g.addNode t pt).typeOf t' = if t' = t then some pt else g.typeOf t' := by
  unfold addNode typeOf
  by_cases hp : g.nodes.any fun n => n.1 = t
  · rw [if_pos hp]
    simp only
    rw [find?_map_of_pres (fun n => if n.1 = t then (n.1, pt) else n)
        (fun n => decide (n.1 = t'))
        (by intro b; by_cases hb : b.1 = t <;> simp [hb]) g.nodes]
    cases hfind : g.nodes.find? fun n => n.1 = t' with
    | none =>
      split
      · next ht =>
        subst ht
        rw [List.any_eq_true] at hp
        rcases hp with ⟨n, hn, hnt⟩
        simp only [decide_eq_true_eq] at hnt
        have : (g.nodes.find? fun n => n.1 = t').isSome :=
          List.find?_isSome.mpr ⟨n, hn, by simpa using hnt⟩
        rw [hfind] at this
        cases this
      · rfl
    | some n =>
      have hn : n.1 = t' := by
        have := List.find?_some hfind
        simpa using this
      split
      · next ht =>
        subst ht
        simp [hn]
      · next ht =>
        have : ¬ n.1 = t := by rw [hn]; exact ht
        simp [this]
  · rw [if_neg hp]
    simp only
    rw [find?_append_eq]
    split
    · next ht =>
      subst ht
      have hnone : (g.nodes.find? fun n => n.1 = t') = none := by
        rw [List.find?_eq_none]
        intro x hx hxt
        exact hp (List.any_eq_true.mpr ⟨x, hx, hxt⟩)
      rw [hnone]
      simp
    · next ht =>
      have hsingle : (([(t, pt)] : List (String × PType)).find? fun n => n.1 = t') = none := by
        rw [List.find?_eq_none]
        intro x hx hxt
        rw [List.mem_singleton] at hx
        subst hx
        simp only [decide_eq_true_eq] at hxt
        exact ht hxt.symm
      cases hfind : g.nodes.find? fun n => n.1 = t' with
      | none =>
        rw [hsingle]
        rfl
      | some n =>
        rfl

theorem S2Graph.addNodeFold_typeOf (g : S2Graph) (ts : List String) (pt : PType)
    (t' : String) :
    (ts.foldl (fun g t => g.addNode t pt) g).typeOf t' =
      if t' ∈ ts then some pt else g.typeOf t' := by
  induction ts generalizing g with
  | nil => simp
  | cons a ts ih =>
    rw [List.foldl_cons, ih]
    by_cases hmem : t' ∈ ts
    · simp [hmem, List.mem_cons]
    · rw [if_neg hmem, S2Graph.addNode_typeOf]
      by_cases ha : t' = a
      · simp [ha]
      · simp [ha, hmem]

theorem stage2NodesFold_typeOf (l : List S1Node) (g : S2Graph) (t : String) :
    (l.foldl (fun g n => n.normalized_terms.foldl (fun g t => g.addNode t n.ptype) g) g).typeOf t =
      l.foldl (fun acc n => if t ∈ n.normalized_terms then some n.ptype else acc) (g.typeOf t) := by
  induction l generalizing g with
  | nil => rfl
  | cons n l ih =>
    rw [List.foldl_cons, List.foldl_cons, ih, S2Graph.addNodeFold_typeOf]

theorem stage2Nodes_typeOf (s1 : S1Graph) (t : String) :
    (stage2Nodes s1).typeOf t = lastContributor s1 t := by
  unfold stage2Nodes lastContributor
  exact stage2NodesFold_typeOf s1.nodes ⟨[], []⟩ t

theorem stage2PairStep_nodes (r : Rel) (srcList : List Src) (txt : String)
    (purp : List (String × String)) (g : S2Graph) (p : String × String) :
    (stage2PairStep r srcList txt purp g p).nodes = g.nodes := by
  unfold stage2PairStep
  by_cases hhas : g.hasEdge p.1 p.2 r
  · rw [if_pos hhas]
    rfl
  · rw [if_neg hhas]
    unfold dag_add_edge2
    by_cases hc : p.1 = p.2 ∨ p.1 ∈ reachFrom g.adj p.2
    · rw [if_pos hc]
      rfl
    · rw [if_neg hc]
      rfl

theorem stage2PairFold_nodes (r : Rel) (srcList : List Src) (txt : String)
    (purp : List (String × String)) (ps : List (String × String)) (g : S2Graph) :
    (ps.foldl (stage2PairStep r srcList txt purp) g).nodes = g.nodes := by
  induction ps generalizing g with
  | nil => rfl
  | cons p ps ih =>
    rw [List.foldl_cons, ih, stage2PairStep_nodes]

/-- The edge-projection pass keeps the node list untouched. -/
theorem stage2ProcessEdge_nodes (edgeText : List Src → String) (s1 : S1Graph)
    (g : S2Graph) (e : S1Edge) :
    (stage2ProcessEdge edgeText s1 g e).nodes = g.nodes := by
  unfold stage2ProcessEdge
  split
  · rfl
  · exact stage2PairFold_nodes _ _ _ _ _ g

theorem stage2EdgesFold_nodes (edgeText : List Src → String) (s1 : S1Graph)
    (es : List S1Edge) (g : S2Graph) :
    (es.foldl (stage2ProcessEdge edgeText s1) g).nodes = g.nodes := by
  induction es generalizing g with
  | nil => rfl
  | cons e es ih =>
    rw [List.foldl_cons, ih, stage2ProcessEdge_nodes]

theorem filter_find?_of_imp {β : Type} (p q : β → Bool) (l : List β)
    (h : ∀ x, p x = true → q x = true) :
    (l.filter q).find? p = l.find? p := by
  induction l with
  | nil => rfl
  | cons a l ih =>
    by_cases hq : q a = true
    · rw [List.filter_cons_of_pos hq]
      cases hpa : p a
      · rw [List.find?_cons_of_neg _ (by simp [hpa]),
            List.find?_cons_of_neg _ (by simp [hpa]), ih]
      · rw [List.find?_cons_of_pos _ hpa, List.find?_cons_of_pos _ hpa]
    · rw [List.filter_cons_of_neg (by simpa using hq)]
      cases hpa : p a
      · rw [List.find?_cons_of_neg _ (by simp [hpa]), ih]
      · exact absurd (h a hpa) hq

theorem S2Graph.removeNode_typeOf (g : S2Graph) (t' t : String) :
    (g.removeNode t').typeOf t = if t = t' then none else g.typeOf t := by
  unfold removeNode typeOf
  split
  · next ht =>
    subst ht
    simp only
    have : ((g.nodes.filter fun n => n.1 ≠ t).find? fun n => n.1 = t) = none := by
      rw [List.find?_eq_none]
      intro x hx hxt
      have := List.of_mem_filter hx
      simp only [decide_eq_true_eq] at hxt
      simp [hxt] at this
    rw [this]
    rfl
  · next ht =>
    simp only
    rw [filter_find?_of_imp]
    intro x hx
    simp only [decide_eq_true_eq] at hx
    simp [hx, ht]

theorem prune_typeOf_some {g : S2Graph} {t : String} {pt : PType}
    (h : (prune g).typeOf t = some pt) : g.typeOf t = some pt := by
  unfold prune at h
  revert h
  generalize g.nodes = snapshot
  induction snapshot generalizing g with
  | nil => exact fun h => h
  | cons n ns ih =>
    intro h
    rw [List.foldl_cons] at h
    have := ih (g := if g.inDeg n.1 = 0 ∧ g.outDeg n.1 = 0 then g.removeNode n.1 else g) h
    split at this
    · rw [S2Graph.removeNode_typeOf] at this
      split at this
      · cases this
      · exact this
    · exact this

/-- C5 counterexample — two stage-1 occurrences of the term "x", one DATA
and one ACTOR, project onto a single stage-2 node whose type is silently
overwritten to that of the later occurrence; no inconsistency is
surfaced (the builder returns an ordinary graph). -/
theorem claim_C5_type_conflict_counterexample :
    (buildStage2 (fun _ => "")
        ⟨[⟨(0, 0), PType.DATA, ["x"], [(0, 0)]⟩,
          ⟨(0, 1), PType.ACTOR, ["x"], [(0, 1)]⟩,
          ⟨(0, 2), PType.ACTOR, ["y"], [(0, 2)]⟩],
          [⟨(0, 2), (0, 0), Rel.COLLECT, []⟩]⟩).typeOf "x" = some PType.ACTOR ∧
    (buildStage2 (fun _ => "")
        ⟨[⟨(0, 0), PType.DATA, ["x"], [(0, 0)]⟩,
          ⟨(0, 1), PType.ACTOR, ["x"], [(0, 1)]⟩,
          ⟨(0, 2), PType.ACTOR, ["y"], [(0, 2)]⟩],
          [⟨(0, 2), (0, 0), Rel.COLLECT, []⟩]⟩).typeOf "x" ≠ some PType.DATA := by
  exact ⟨by decide, by decide⟩

/-- C5 (amended) — a canonical term's stage-2 type is not checked for
consistency: the node-projection pass lets the last stage-1 occurrence (in
node-list order) whose normalized terms contain the string overwrite the
type, and the builder never surfaces a conflict.  The projected type
always equals the last contributor's type. -/
theorem claim_C5_type_last_writer_wins (edgeText : List Src → String)
    (s1 : S1Graph) (t : String) :
    (stage2Nodes s1).typeOf t = lastContributor s1 t ∧
    (∀ pt : PType, (buildStage2 edgeText s1).typeOf t = some pt →
      lastContributor s1 t = some pt) := by
  refine ⟨stage2Nodes_typeOf s1 t, ?_⟩
  intro pt h
  unfold buildStage2 at h
  have h1 := prune_typeOf_some h
  have h2 : ((s1.edges.foldl (stage2ProcessEdge edgeText s1) (stage2Nodes s1))).typeOf t
      = some pt := by
    have : (stage2Post (s1.edges.foldl (stage2ProcessEdge edgeText s1) (stage2Nodes s1))).typeOf t
        = ((s1.edges.foldl (stage2ProcessEdge edgeText s1) (stage2Nodes s1))).typeOf t := rfl
    rw [← this]
    exact h1
  rw [← stage2Nodes_typeOf]
  unfold S2Graph.typeOf at h2 ⊢
  rw [stage2EdgesFold_nodes] at h2
  exact h2

/-- Witness for C5's amended theorem at the counterexample input. -/
theorem claim_C5_type_last_writer_wins_witness :
    (buildStage2 (fun _ => "")
        ⟨[⟨(0, 0), PType.DATA, ["x"], [(0, 0)]⟩,
          ⟨(0, 1), PType.ACTOR, ["x"], [(0, 1)]⟩,
          ⟨(0, 2), PType.ACTOR, ["y"], [(0, 2)]⟩],
          [⟨(0, 2), (0, 0), Rel.COLLECT, []⟩]⟩).typeOf "x" = some PType.ACTOR ∧
    lastContributor
        ⟨[⟨(0, 0), PType.DATA, ["x"], [(0, 0)]⟩,
          ⟨(0, 1), PType.ACTOR, ["x"], [(0, 1)]⟩,
          ⟨(0, 2), PType.ACTOR, ["y"], [(0, 2)]⟩],
          [⟨(0, 2), (0, 0), Rel.COLLECT, []⟩]⟩ "x" = some PType.ACTOR :=
  ⟨by decide,
    (claim_C5_type_last_writer_wins (fun _ => "")
      ⟨[⟨(0, 0), PType.DATA, ["x"], [(0, 0)]⟩,
        ⟨(0, 1), PType.ACTOR, ["x"], [(0, 1)]⟩,
        ⟨(0, 2), PType.ACTOR, ["y"], [(0, 2)]⟩],
        [⟨(0, 2), (0, 0), Rel.COLLECT, []⟩]⟩ "x").2 PType.ACTOR (by decide)⟩

theorem S2Graph.removeNode_edges_of_isolated {g : S2Graph} {t : String}
    (hin : g.inDeg t = 0) (hout : g.outDeg t = 0) :
    (g.removeNode t).edges = g.edges := by
  unfold removeNode
  simp only
  rw [List.filter_eq_self]
  intro e he
  have h1 : e.src ≠ t := by
    intro hsrc
    unfold outDeg at hout
    rw [List.length_eq_zero] at hout
    have : e ∈ g.edges.filter fun e => e.src = t :=
      List.mem_filter.mpr ⟨he, by simp [hsrc]⟩
    rw [hout] at this
    cases this
  have h2 : e.dst ≠ t := by
    intro hdst
    unfold inDeg at hin
    rw [List.length_eq_zero] at hin
    have : e ∈ g.edges.filter fun e => e.dst = t :=
      List.mem_filter.mpr ⟨he, by simp [hdst]⟩
    rw [hin] at this
    cases this
  simp [h1, h2]

theorem pruneFold_edges (l : List (String × PType)) (g : S2Graph) :
    (l.foldl (fun g' n =>
      if g'.inDeg n.1 = 0 ∧ g'.outDeg n.1 = 0 then g'.removeNode n.1 else g') g).edges
      = g.edges := by
  induction l generalizing g with
  | nil => rfl
  | cons n l ih =>
    rw [List.foldl_cons, ih]
    split
    · next h => exact S2Graph.removeNode_edges_of_isolated h.1 h.2
    · rfl

theorem pruneFold_nodes_sub (l : List (String × PType)) (g : S2Graph) :
    ∀ p ∈ (l.foldl (fun g' n =>
      if g'.inDeg n.1 = 0 ∧ g'.outDeg n.1 = 0 then g'.removeNode n.1 else g') g).nodes,
      p ∈ g.nodes := by
  induction l generalizing g with
  | nil => exact fun p hp => hp
  | cons n l ih =>
    intro p hp
    rw [List.foldl_cons] at hp
    have := ih _ p hp
    split at this
    · exact List.mem_of_mem_filter this
    · exact this

theorem S2Graph.inDeg_congr {g g' : S2Graph} (h : g.edges = g'.edges) (t : String) :
    g.inDeg t = g'.inDeg t := by
  unfold inDeg
  rw [h]

theorem S2Graph.outDeg_congr {g g' : S2Graph} (h : g.edges = g'.edges) (t : String) :
    g.outDeg t = g'.outDeg t := by
  unfold outDeg
  rw [h]

theorem pruneFold_survivor (l : List (String × PType)) (g : S2Graph) :
    ∀ p ∈ (l.foldl (fun g' n =>
      if g'.inDeg n.1 = 0 ∧ g'.outDeg n.1 = 0 then g'.removeNode n.1 else g') g).nodes,
      (g.inDeg p.1 ≠ 0 ∨ g.outDeg p.1 ≠ 0) ∨ p.1 ∉ l.map Prod.fst := by
  induction l generalizing g with
  | nil =>
    intro p _
    right
    simp
  | cons n l ih =>
    intro p hp
    rw [List.foldl_cons] at hp
    by_cases hcase : g.inDeg n.1 = 0 ∧ g.outDeg n.1 = 0
    · rw [if_pos hcase] at hp
      have hedges : (g.removeNode n.1).edges = g.edges :=
        S2Graph.removeNode_edges_of_isolated hcase.1 hcase.2
      have hpn : p.1 ≠ n.1 := by
        have hmem := pruneFold_nodes_sub l _ p hp
        unfold S2Graph.removeNode at hmem
        have := List.of_mem_filter hmem
        simpa using this
      rcases ih _ p hp with h | h
      · left
        rw [S2Graph.inDeg_congr hedges.symm, S2Graph.outDeg_congr hedges.symm]
        exact h
      · right
        rw [List.map_cons, List.mem_cons]
        rintro (h1 | h1)
        · exact hpn h1
        · exact h h1
    · rw [if_neg hcase] at hp
      by_cases hpn : p.1 = n.1
      · left
        rw [hpn]
        exact not_and_or.mp hcase
      · rcases ih _ p hp with h | h
        · exact Or.inl h
        · right
          rw [List.map_cons, List.mem_cons]
          rintro (h1 | h1)
          · exact hpn h1
          · exact h h1

theorem prune_edges (g : S2Graph) : (prune g).edges = g.edges :=
  pruneFold_edges g.nodes g

theorem prune_no_isolated (g : S2Graph) :
    ∀ p ∈ (prune g).nodes, (prune g).inDeg p.1 ≠ 0 ∨ (prune g).outDeg p.1 ≠ 0 := by
  intro p hp
  have hedges := prune_edges g
  have hsub : p ∈ g.nodes := pruneFold_nodes_sub g.nodes g p hp
  rcases pruneFold_survivor g.nodes g p hp with h | h
  · rw [S2Graph.inDeg_congr hedges, S2Graph.outDeg_congr hedges]
    exact h
  · exact absurd (List.mem_map.mpr ⟨p, hsub, rfl⟩) h

theorem prune_eq_of_no_isolated {g : S2Graph}
    (h : ∀ p ∈ g.nodes, g.inDeg p.1 ≠ 0 ∨ g.outDeg p.1 ≠ 0) : prune g = g := by
  unfold prune
  have key : ∀ l : List (String × PType), (∀ n ∈ l, ¬ (g.inDeg n.1 = 0 ∧ g.outDeg n.1 = 0)) →
      l.foldl (fun g' n =>
        if g'.inDeg n.1 = 0 ∧ g'.outDeg n.1 = 0 then g'.removeNode n.1 else g') g = g := by
    intro l
    induction l with
    | nil => intro _; rfl
    | cons n l ih =>
      intro hl
      rw [List.foldl_cons, if_neg (hl n (List.mem_cons_self _ _))]
      exact ih fun m hm => hl m (List.mem_cons_of_mem _ hm)
  exact key g.nodes fun n hn => not_and_or.mpr (h n hn)

/-- C8 — stage-2 post-processing pruning reaches a fixed point: no node of
the graph returned by the stage-2 builder has both in-degree 0 and
out-degree 0, and running the pruning pass again changes nothing (the
removed nodes were isolated, so their removal cannot create new isolated
nodes). -/
theorem claim_C8_prune_fixed_point (edgeText : List Src → String) (s1 : S1Graph) :
    (∀ p ∈ (buildStage2 edgeText s1).nodes,
      (buildStage2 edgeText s1).inDeg p.1 ≠ 0 ∨ (buildStage2 edgeText s1).outDeg p.1 ≠ 0) ∧
    prune (buildStage2 edgeText s1) = buildStage2 edgeText s1 := by
  have h1 : ∀ p ∈ (buildStage2 edgeText s1).nodes,
      (buildStage2 edgeText s1).inDeg p.1 ≠ 0 ∨ (buildStage2 edgeText s1).outDeg p.1 ≠ 0 := by
    unfold buildStage2
    exact prune_no_isolated _
  exact ⟨h1, prune_eq_of_no_isolated h1⟩

/-- Witness for C8: a concrete stage-1 graph whose stage-2 projection has a
surviving node with positive degree. -/
theorem claim_C8_prune_fixed_point_witness :
    ("a", PType.ACTOR) ∈ (buildStage2 (fun _ => "")
        ⟨[⟨(0, 0), PType.DATA, ["d"], [(0, 0)]⟩,
          ⟨(0, 1), PType.ACTOR, ["a"], [(0, 1)]⟩],
          [⟨(0, 1), (0, 0), Rel.COLLECT, []⟩]⟩).nodes ∧
    ((buildStage2 (fun _ => "")
        ⟨[⟨(0, 0), PType.DATA, ["d"], [(0, 0)]⟩,
          ⟨(0, 1), PType.ACTOR, ["a"], [(0, 1)]⟩],
          [⟨(0, 1), (0, 0), Rel.COLLECT, []⟩]⟩).inDeg "a" ≠ 0 ∨
      (buildStage2 (fun _ => "")
        ⟨[⟨(0, 0), PType.DATA, ["d"], [(0, 0)]⟩,
          ⟨(0, 1), PType.ACTOR, ["a"], [(0, 1)]⟩],
          [⟨(0, 1), (0, 0), Rel.COLLECT, []⟩]⟩).outDeg "a" ≠ 0) :=
  ⟨by decide,
    (claim_C8_prune_fixed_point (fun _ => "")
      ⟨[⟨(0, 0), PType.DATA, ["d"], [(0, 0)]⟩,
        ⟨(0, 1), PType.ACTOR, ["a"], [(0, 1)]⟩],
        [⟨(0, 1), (0, 0), Rel.COLLECT, []⟩]⟩).1 ("a", PType.ACTOR) (by decide)⟩

theorem S1Graph.setNorm_edges (g : S1Graph) (s : Src) (terms : List String)
    (coref : List Src) : (g.setNorm s terms coref).edges = g.edges := rfl

theorem stage1Step5Node_edges (nz : Src → List String) (g : S1Graph) (s : Src) :
    (stage1Step5Node nz g s).edges = g.edges := by
  unfold stage1Step5Node
  split <;> rfl

theorem S1Graph.setNorm_srcs (g : S1Graph) (s : Src) (terms : List String)
    (coref : List Src) : (g.setNorm s terms coref).srcs = g.srcs := by
  unfold setNorm srcs
  simp only [List.map_map]
  apply List.map_congr_left
  intro n _
  by_cases h : n.src = s <;> simp [h]

theorem stage1Step5Node_srcs (nz : Src → List String) (g : S1Graph) (s : Src) :
    (stage1Step5Node nz g s).srcs = g.srcs := by
  unfold stage1Step5Node
  split <;> exact S1Graph.setNorm_srcs ..

theorem S1Graph.corefOf_setNorm_ne {g : S1Graph} {s r : Src}
    (h : r ≠ s) (terms : List String) (coref : List Src) :
    (g.setNorm s terms coref).corefOf r = g.corefOf r := by
  unfold setNorm corefOf lookup
  simp only
  rw [find?_map_of_pres _ (fun n => decide (n.src = r))
      (by intro b; by_cases hb : b.src = s <;> simp [hb]) g.nodes]
  cases hfind : g.nodes.find? fun n => n.src = r with
  | none => rfl
  | some n0 =>
    have hsrc : n0.src = r := by simpa using List.find?_some hfind
    have : ¬ n0.src = s := by rw [hsrc]; exact h
    simp [this]

theorem stage1Step5Node_corefOf_ne (nz : Src → List String) {g : S1Graph}
    {s r : Src} (h : r ≠ s) :
    (stage1Step5Node nz g s).corefOf r = g.corefOf r := by
  unfold stage1Step5Node
  split <;> exact S1Graph.corefOf_setNorm_ne h ..

theorem corefTargets_congr {g g' : S1Graph} (h : g.edges = g'.edges) (s : Src) :
    corefTargets g s = corefTargets g' s := by
  unfold corefTargets
  rw [h]

theorem S1Graph.lookup_of_mem_srcs {g : S1Graph} {s : Src} (h : s ∈ g.srcs) :
    ∃ n0, g.lookup s = some n0 ∧ n0 ∈ g.nodes ∧ n0.src = s := by
  unfold srcs at h
  rcases List.mem_map.mp h with ⟨n, hn, hsrc⟩
  have hsome : (g.nodes.find? fun n => n.src = s).isSome :=
    List.find?_isSome.mpr ⟨n, hn, by simpa using hsrc⟩
  rcases Option.isSome_iff_exists.mp hsome with ⟨n0, hn0⟩
  exact ⟨n0, hn0, List.mem_of_find?_eq_some hn0,
    by simpa using List.find?_some hn0⟩

theorem S1Graph.corefOf_eq_of_lookup {g : S1Graph} {s : Src} {n0 : S1Node}
    (h : g.lookup s = some n0) : g.corefOf s = n0.coref_main := by
  unfold corefOf
  rw [h]
  rfl

theorem foldl_congr_mem {β γ : Type} {l : List β} {f f' : γ → β → γ} {b : γ}
    (h : ∀ acc x, x ∈ l → f acc x = f' acc x) : l.foldl f b = l.foldl f' b := by
  induction l generalizing b with
  | nil => rfl
  | cons a l ih =>
    rw [List.foldl_cons, List.foldl_cons, h b a (List.mem_cons_self _ _)]
    exact ih fun acc x hx => h acc x (List.mem_cons_of_mem _ hx)

theorem unionSet_ne_nil_of_left {α : Type} [DecidableEq α] {l m : List α}
    (h : l ≠ []) : unionSet l m ≠ [] := by
  intro hcon
  rcases l with _ | ⟨a, as⟩
  · exact h rfl
  · have : a ∈ unionSet (a :: as) m :=
      mem_unionSet.mpr (Or.inl (List.mem_cons_self _ _))
    rw [hcon] at this
    exact List.not_mem_nil _ this

theorem foldl_unionSet_ne_nil {α β : Type} [DecidableEq α] {l : List β}
    {f : β → List α} {b : List α} (hl : l ≠ []) (hf : ∀ x ∈ l, f x ≠ []) :
    l.foldl (fun acc x => unionSet acc (f x)) b ≠ [] := by
  induction l generalizing b with
  | nil => exact absurd rfl hl
  | cons a l ih =>
    rw [List.foldl_cons]
    rcases l with _ | ⟨c, cs⟩
    · exact unionSet_ne_nil_of_right (hf a (List.mem_cons_self _ _))
    · exact ih (by simp) fun x hx => hf x (List.mem_cons_of_mem _ hx)

/-- If a node's COREF targets exist, the accumulated coref-main set is
non-empty (each target contributes a non-empty set or its own name). -/
theorem corefMainAt_ne_nil {g : S1Graph} {s : Src}
    (h : corefTargets g s ≠ []) : corefMainAt g s ≠ [] := by
  unfold corefMainAt
  apply foldl_unionSet_ne_nil h
  intro r _
  split
  · simp
  · next hne => exact hne

theorem corefMainAt_nil {g : S1Graph} {s : Src}
    (h : corefTargets g s = []) : corefMainAt g s = [] := by
  unfold corefMainAt
  rw [h]
  rfl

/-- The step-5 fold invariant: after processing `rest` on top of the nodes
already processed in `done` (a reverse-topological prefix), every processed
node's coref-main set is non-empty, is the singleton of the node when it
has no COREF targets, and is otherwise the union of its targets' final
coref-main sets. -/
theorem stage1Step5_fold_inv (g : S1Graph) (nz : Src → List String) :
    ∀ (rest done : List Src) (gc : S1Graph),
      gc.edges = g.edges →
      gc.srcs = g.srcs →
      (∀ s ∈ done, s ∉ rest) →
      rest.Nodup →
      topoOk g done rest = true →
      (∀ e ∈ g.edges, e.relationship = Rel.COREF → e.dst ∈ g.srcs) →
      (∀ n ∈ gc.nodes, n.src ∈ done →
        n.coref_main ≠ [] ∧
        (corefTargets g n.src = [] → n.coref_main = [n.src]) ∧
        (corefTargets g n.src ≠ [] →
          (∀ r ∈ corefTargets g n.src, r ∈ done) ∧
          n.coref_main = (corefTargets g n.src).foldl
            (fun acc r => unionSet acc (gc.corefOf r)) [])) →
      ((rest.foldl (stage1Step5Node nz) gc).edges = g.edges ∧
        (rest.foldl (stage1Step5Node nz) gc).srcs = g.srcs ∧
        ∀ n ∈ (rest.foldl (stage1Step5Node nz) gc).nodes, n.src ∈ done ++ rest →
          n.coref_main ≠ [] ∧
          (corefTargets g n.src = [] → n.coref_main = [n.src]) ∧
          (corefTargets g n.src ≠ [] →
            (∀ r ∈ corefTargets g n.src, r ∈ done ++ rest) ∧
            n.coref_main = (corefTargets g n.src).foldl
              (fun acc r => unionSet acc ((rest.foldl (stage1Step5Node nz) gc).corefOf r)) [])) := by
  intro rest
  induction rest with
  | nil =>
    intro done gc hE hS _ _ _ _ hdone
    refine ⟨hE, hS, ?_⟩
    simp only [List.foldl_nil, List.append_nil]
    exact hdone
  | cons s rest' ih =>
    intro done gc hE hS hdisj hnd htopo htgt hdone
    simp only [List.foldl_cons]
    have hE' : (stage1Step5Node nz gc s).edges = g.edges := by
      rw [stage1Step5Node_edges]; exact hE
    have hS' : (stage1Step5Node nz gc s).srcs = g.srcs := by
      rw [stage1Step5Node_srcs]; exact hS
    have htopoAnd : (((corefTargets g s).all fun t => t ∈ done) = true) ∧
        topoOk g (done ++ [s]) rest' = true := by
      unfold topoOk at htopo
      rw [Bool.and_eq_true] at htopo
      exact htopo
    have hrefs_eq : corefTargets gc s = corefTargets g s := corefTargets_congr hE s
    have hs_notin_done : s ∉ done := fun h => hdisj s h (List.mem_cons_self _ _)
    have htgt_done : ∀ r ∈ corefTargets g s, r ∈ done := by
      intro r hr
      have := List.all_eq_true.mp htopoAnd.1 r hr
      simpa using this
    have htgt_ne : ∀ r ∈ corefTargets g s, gc.corefOf r ≠ [] := by
      intro r hr
      have hr_srcs : r ∈ g.srcs := by
        unfold corefTargets at hr
        rcases List.mem_filterMap.mp hr with ⟨e, he, hee⟩
        split at hee
        · next hcond =>
          cases hee
          exact htgt e he hcond.2
        · cases hee
      rw [← hS] at hr_srcs
      rcases S1Graph.lookup_of_mem_srcs hr_srcs with ⟨n0, hl, hmem0, hsrc0⟩
      rw [S1Graph.corefOf_eq_of_lookup hl]
      exact (hdone n0 hmem0 (hsrc0 ▸ htgt_done r hr)).1
    -- the value of `corefMainAt gc s` in terms of the original graph
    have hcm_eq : corefMainAt gc s = (corefTargets g s).foldl
        (fun acc r => unionSet acc (gc.corefOf r)) [] := by
      unfold corefMainAt
      rw [hrefs_eq]
      apply foldl_congr_mem
      intro acc r hr
      rw [if_neg (htgt_ne r hr)]
    -- invariant after the one-node step, for the processed set `done ++ [s]`
    have hstep : ∀ n' ∈ (stage1Step5Node nz gc s).nodes, n'.src ∈ done ++ [s] →
        n'.coref_main ≠ [] ∧
        (corefTargets g n'.src = [] → n'.coref_main = [n'.src]) ∧
        (corefTargets g n'.src ≠ [] →
          (∀ r ∈ corefTargets g n'.src, r ∈ done ++ [s]) ∧
          n'.coref_main = (corefTargets g n'.src).foldl
            (fun acc r => unionSet acc ((stage1Step5Node nz gc s).corefOf r)) []) := by
      intro n' hn' hmem'
      have hdecomp : ∃ n ∈ gc.nodes,
          (n.src ≠ s ∧ n' = n) ∨
          (n.src = s ∧ n'.src = s ∧
            n'.coref_main = (if corefMainAt gc s ≠ [] then corefMainAt gc s else [s])) := by
        unfold stage1Step5Node at hn'
        split at hn'
        · next hcond =>
          unfold S1Graph.setNorm at hn'
          rcases List.mem_map.mp hn' with ⟨n, hn, hfn⟩
          refine ⟨n, hn, ?_⟩
          by_cases hns : n.src = s
          · right
            rw [if_pos hns] at hfn
            subst hfn
            exact ⟨hns, hns, by rw [if_pos hcond]⟩
          · left
            rw [if_neg hns] at hfn
            exact ⟨hns, hfn.symm⟩
        · next hcond =>
          unfold S1Graph.setNorm at hn'
          rcases List.mem_map.mp hn' with ⟨n, hn, hfn⟩
          refine ⟨n, hn, ?_⟩
          by_cases hns : n.src = s
          · right
            rw [if_pos hns] at hfn
            subst hfn
            exact ⟨hns, hns, by rw [if_neg hcond]⟩
          · left
            rw [if_neg hns] at hfn
            exact ⟨hns, hfn.symm⟩
      rcases hdecomp with ⟨n, hn, hcase⟩
      rcases hcase with ⟨hne, heq⟩ | ⟨_, hsrc', hcm⟩
      · subst heq
        by_cases hd : n'.src ∈ done
        · have hP := hdone n' hn hd
          refine ⟨hP.1, hP.2.1, ?_⟩
          intro hrefs
          have h3 := hP.2.2 hrefs
          refine ⟨fun r hr => List.mem_append.mpr (Or.inl (h3.1 r hr)), ?_⟩
          rw [h3.2]
          apply foldl_congr_mem
          intro acc r hr
          have hrs : r ≠ s := fun h => hs_notin_done (h ▸ h3.1 r hr)
          rw [stage1Step5Node_corefOf_ne nz hrs]
        · exfalso
          rcases List.mem_append.mp hmem' with h | h
          · exact hd h
          · rw [List.mem_singleton] at h
            exact hne h
      · by_cases hrefs : corefTargets g s = []
        · have hcmnil : corefMainAt gc s = [] := by
            rw [← hrefs_eq] at hrefs
            exact corefMainAt_nil (by rw [hrefs_eq]; rw [hrefs_eq] at hrefs; exact hrefs)
          have hcm' : n'.coref_main = [s] := by
            rw [hcm, if_neg (by rw [hcmnil]; simp)]
          refine ⟨by rw [hcm']; simp, ?_, ?_⟩
          · intro _
            rw [hcm', hsrc']
          · intro hcon
            rw [hsrc'] at hcon
            exact absurd hrefs hcon
        · have hcmne : corefMainAt gc s ≠ [] :=
            corefMainAt_ne_nil (by rw [hrefs_eq]; exact hrefs)
          have hcm' : n'.coref_main = corefMainAt gc s := by
            rw [hcm, if_pos hcmne]
          refine ⟨by rw [hcm']; exact hcmne, ?_, ?_⟩
          · intro hcon
            rw [hsrc'] at hcon
            exact absurd hcon hrefs
          · intro _
            rw [hsrc']
            refine ⟨fun r hr => List.mem_append.mpr (Or.inl (htgt_done r hr)), ?_⟩
            rw [hcm', hcm_eq]
            apply foldl_congr_mem
            intro acc r hr
            have hrs : r ≠ s := fun h => hs_notin_done (h ▸ htgt_done r hr)
            rw [stage1Step5Node_corefOf_ne nz hrs]
    have hdisj' : ∀ x ∈ done ++ [s], x ∉ rest' := by
      intro x hx
      rcases List.mem_append.mp hx with h | h
      · intro hcon
        exact hdisj x h (List.mem_cons_of_mem _ hcon)
      · rw [List.mem_singleton] at h
        subst h
        exact (List.nodup_cons.mp hnd).1
    have hmain := ih (done ++ [s]) (stage1Step5Node nz gc s) hE' hS' hdisj'
      (List.nodup_cons.mp hnd).2 htopoAnd.2 htgt hstep
    refine ⟨hmain.1, hmain.2.1, ?_⟩
    intro n hn hmem
    have hmem' : n.src ∈ (done ++ [s]) ++ rest' := by
      rw [List.append_assoc]
      simpa using hmem
    have hfin := hmain.2.2 n hn hmem'
    refine ⟨hfin.1, hfin.2.1, ?_⟩
    intro hrefs
    have h3 := hfin.2.2 hrefs
    refine ⟨?_, h3.2⟩
    intro r hr
    have := h3.1 r hr
    rw [List.append_assoc] at this
    simpa using this

theorem S1Graph.mem_srcs_of_mem {g : S1Graph} {n : S1Node} (h : n ∈ g.nodes) :
    n.src ∈ g.srcs := by
  unfold srcs
  exact List.mem_map.mpr ⟨n, h, rfl⟩

/-- C10 — after stage-1 normalization, every node of the stage-1 graph has
a non-empty coreference-main set: the singleton of the node itself when it
has no COREF targets, and otherwise the union of its targets' coref-main
sets; consequently the coref-main set stage 2 resolves for any node is
non-empty, so `set.union(*(…))` is always applied to at least one operand.
The hypotheses state what `networkx.topological_sort` guarantees for the
processing order of a DAG: it enumerates every node exactly once, and
(reversed) lists every COREF target before the node pointing at it. -/
theorem claim_C10_coref_main_nonempty (nz : Src → List String)
    (order : List Src) (g : S1Graph)
    (h1 : topoOk g [] order = true)
    (h2 : ∀ n ∈ g.nodes, n.src ∈ order)
    (h3 : order.Nodup)
    (h4 : ∀ e ∈ g.edges, e.relationship = Rel.COREF → e.dst ∈ g.srcs) :
    ∀ n ∈ (stage1Step5 nz order g).nodes,
      n.coref_main ≠ [] ∧
      (corefTargets g n.src = [] → n.coref_main = [n.src]) ∧
      (corefTargets g n.src ≠ [] → n.coref_main = (corefTargets g n.src).foldl
        (fun acc r => unionSet acc ((stage1Step5 nz order g).corefOf r)) []) ∧
      corefMainOf (stage1Step5 nz order g) n.src ≠ [] := by
  have hmain := stage1Step5_fold_inv g nz order [] g rfl rfl (by simp) h3 h1 h4
    (by intro n _ hmem; cases hmem)
  have hfold : stage1Step5 nz order g = order.foldl (stage1Step5Node nz) g := rfl
  rw [hfold]
  intro n hn
  have hsrc_mem : ∀ m : Src, m ∈ (order.foldl (stage1Step5Node nz) g).srcs → m ∈ order := by
    intro m hm
    rw [hmain.2.1] at hm
    unfold S1Graph.srcs at hm
    rcases List.mem_map.mp hm with ⟨n1, hn1, hsrc1⟩
    rw [← hsrc1]
    exact h2 n1 hn1
  have hP := hmain.2.2 n hn
    (by simpa using hsrc_mem n.src (S1Graph.mem_srcs_of_mem hn))
  refine ⟨hP.1, hP.2.1, fun hr => (hP.2.2 hr).2, ?_⟩
  have hs' : n.src ∈ (order.foldl (stage1Step5Node nz) g).srcs :=
    S1Graph.mem_srcs_of_mem hn
  rcases S1Graph.lookup_of_mem_srcs hs' with ⟨n0, hl, hmem0, hsrc0⟩
  have hP0 := hmain.2.2 n0 hmem0
    (by simpa using hsrc_mem n0.src (S1Graph.mem_srcs_of_mem hmem0))
  unfold corefMainOf
  rw [S1Graph.corefOf_eq_of_lookup hl]
  exact hP0.1

/-- Witness for C10 at a two-node COREF chain. -/
theorem claim_C10_coref_main_nonempty_witness :
    topoOk ⟨[⟨(0, 0), PType.DATA, [], []⟩, ⟨(0, 1), PType.DATA, [], []⟩],
        [⟨(0, 0), (0, 1), Rel.COREF, []⟩]⟩ [] [(0, 1), (0, 0)] = true ∧
    (⟨(0, 0), PType.DATA, [], [(0, 1)]⟩ : S1Node) ∈
      (stage1Step5 (fun _ => ["t"]) [(0, 1), (0, 0)]
        ⟨[⟨(0, 0), PType.DATA, [], []⟩, ⟨(0, 1), PType.DATA, [], []⟩],
          [⟨(0, 0), (0, 1), Rel.COREF, []⟩]⟩).nodes ∧
    corefMainOf
      (stage1Step5 (fun _ => ["t"]) [(0, 1), (0, 0)]
        ⟨[⟨(0, 0), PType.DATA, [], []⟩, ⟨(0, 1), PType.DATA, [], []⟩],
          [⟨(0, 0), (0, 1), Rel.COREF, []⟩]⟩) (0, 0) ≠ [] :=
  ⟨by decide, by decide,
    ((claim_C10_coref_main_nonempty (fun _ => ["t"]) [(0, 1), (0, 0)]
      ⟨[⟨(0, 0), PType.DATA, [], []⟩, ⟨(0, 1), PType.DATA, [], []⟩],
        [⟨(0, 0), (0, 1), Rel.COREF, []⟩]⟩
      (by decide) (by decide) (by decide) (by decide))
      ⟨(0, 0), PType.DATA, [], [(0, 1)]⟩ (by decide)).2.2.2⟩

theorem stripLeft_spec (doc : List Tok) :
    ∀ (fuel l : Nat), doc.length - l ≤ fuel →
      l ≤ stripLeft doc fuel l ∧
      (stripLeft doc fuel l < doc.length →
        pyInStr (tokAt doc (stripLeft doc fuel l)).lemma_ "\"'([" = false) := by
  intro fuel
  induction fuel with
  | zero =>
    intro l hl
    refine ⟨Nat.le_refl l, ?_⟩
    intro hcon
    exact absurd hcon (by unfold stripLeft at hcon ⊢; omega)
  | succ fuel ih =>
    intro l hl
    unfold stripLeft
    split
    · next hcond =>
      have hstep := ih (l + 1) (by omega)
      exact ⟨Nat.le_trans (Nat.le_succ l) hstep.1, hstep.2⟩
    · next hcond =>
      rw [Classical.not_and_iff_or_not_not] at hcond
      refine ⟨Nat.le_refl l, ?_⟩
      intro hlen
      rcases hcond with h | h
      · exact absurd hlen h
      · exact Bool.eq_false_iff.mpr h

theorem stripRight_spec (doc : List Tok) :
    ∀ (fuel r : Nat), r ≤ fuel →
      stripRight doc fuel r ≤ r ∧
      (1 ≤ stripRight doc fuel r → stripRight doc fuel r - 1 < doc.length →
        pyInStr (tokAt doc (stripRight doc fuel r - 1)).lemma_ "\"')]" = false) := by
  intro fuel
  induction fuel with
  | zero =>
    intro r hr
    have : r = 0 := Nat.le_zero.mp hr
    subst this
    refine ⟨Nat.le_refl 0, ?_⟩
    intro hcon
    exact absurd hcon (by unfold stripRight at hcon ⊢; omega)
  | succ fuel ih =>
    intro r hr
    unfold stripRight
    split
    · next hcond =>
      have hstep := ih (r - 1) (by omega)
      exact ⟨Nat.le_trans hstep.1 (Nat.sub_le r 1), hstep.2⟩
    · next hcond =>
      refine ⟨Nat.le_refl r, ?_⟩
      intro h1 hlen
      by_cases hpy : pyInStr (tokAt doc (r - 1)).lemma_ "\"')]" = true
      · exact absurd ⟨h1, hlen, hpy⟩ hcond
      · exact Bool.eq_false_iff.mpr hpy

/-- C9 counterexample — a span ending in `… and )` keeps the coordinating
conjunction: the cc check runs once, before quote/bracket stripping, so
stripping the `)` exposes the `and` at the right boundary and the yielded
span retains it. -/
theorem claim_C9_cc_retained_counterexample :
    cleanupBounds [⟨"x", "nsubj"⟩, ⟨"and", "cc"⟩, ⟨")", "punct"⟩] 0 3 = (0, 2) ∧
    (tokAt [⟨"x", "nsubj"⟩, ⟨"and", "cc"⟩, ⟨")", "punct"⟩] 1).dep_ = "cc" := by
  exact ⟨by decide, rfl⟩

/-- C9 (amended) — the boundary cleanup retracts the right-boundary token
once when it is a coordinating conjunction, then strips quote/bracket
characters from both boundaries until none is exposed: the yielded bounds
only shrink the span, and the final boundary tokens (when in range) carry
no quote/bracket lemma.  A coordinating conjunction exposed at the right
boundary by the stripping is retained, as the counterexample shows. -/
theorem claim_C9_boundary_cleanup (doc : List Tok) (l r : Nat)
    (hr : r ≤ doc.length) :
    l ≤ (cleanupBounds doc l r).1 ∧
    (cleanupBounds doc l r).2 ≤ (if (tokAt doc (r - 1)).dep_ = "cc" then r - 1 else r) ∧
    ((cleanupBounds doc l r).1 < doc.length →
      pyInStr (tokAt doc (cleanupBounds doc l r).1).lemma_ "\"'([" = false) ∧
    (1 ≤ (cleanupBounds doc l r).2 → (cleanupBounds doc l r).2 - 1 < doc.length →
      pyInStr (tokAt doc ((cleanupBounds doc l r).2 - 1)).lemma_ "\"')]" = false) := by
  have hfst : (cleanupBounds doc l r).1 = stripLeft doc doc.length l := rfl
  have hsnd : (cleanupBounds doc l r).2 =
      stripRight doc doc.length (if (tokAt doc (r - 1)).dep_ = "cc" then r - 1 else r) := rfl
  have hr1 : (if (tokAt doc (r - 1)).dep_ = "cc" then r - 1 else r) ≤ doc.length := by
    split <;> omega
  have hleft := stripLeft_spec doc doc.length l (by omega)
  have hright := stripRight_spec doc doc.length
    (if (tokAt doc (r - 1)).dep_ = "cc" then r - 1 else r) hr1
  rw [hfst, hsnd]
  exact ⟨hleft.1, hright.1, hleft.2, hright.2⟩

/-- Witness for C9's amended theorem on a quoted span with a trailing cc. -/
theorem claim_C9_boundary_cleanup_witness :
    (3 : Nat) ≤ ([⟨"\"", "punct"⟩, ⟨"x", "nsubj"⟩, ⟨"and", "cc"⟩] : List Tok).length ∧
    ((0 : Nat) ≤ (cleanupBounds [⟨"\"", "punct"⟩, ⟨"x", "nsubj"⟩, ⟨"and", "cc"⟩] 0 3).1 ∧
      (cleanupBounds [⟨"\"", "punct"⟩, ⟨"x", "nsubj"⟩, ⟨"and", "cc"⟩] 0 3).2 ≤
        (if (tokAt [⟨"\"", "punct"⟩, ⟨"x", "nsubj"⟩, ⟨"and", "cc"⟩] (3 - 1)).dep_ = "cc"
          then 3 - 1 else 3) ∧
      ((cleanupBounds [⟨"\"", "punct"⟩, ⟨"x", "nsubj"⟩, ⟨"and", "cc"⟩] 0 3).1 <
          ([⟨"\"", "punct"⟩, ⟨"x", "nsubj"⟩, ⟨"and", "cc"⟩] : List Tok).length →
        pyInStr (tokAt [⟨"\"", "punct"⟩, ⟨"x", "nsubj"⟩, ⟨"and", "cc"⟩]
          (cleanupBounds [⟨"\"", "punct"⟩, ⟨"x", "nsubj"⟩, ⟨"and", "cc"⟩] 0 3).1).lemma_
          "\"'([" = false) ∧
      (1 ≤ (cleanupBounds [⟨"\"", "punct"⟩, ⟨"x", "nsubj"⟩, ⟨"and", "cc"⟩] 0 3).2 →
        (cleanupBounds [⟨"\"", "punct"⟩, ⟨"x", "nsubj"⟩, ⟨"and", "cc"⟩] 0 3).2 - 1 <
          ([⟨"\"", "punct"⟩, ⟨"x", "nsubj"⟩, ⟨"and", "cc"⟩] : List Tok).length →
        pyInStr (tokAt [⟨"\"", "punct"⟩, ⟨"x", "nsubj"⟩, ⟨"and", "cc"⟩]
          ((cleanupBounds [⟨"\"", "punct"⟩, ⟨"x", "nsubj"⟩, ⟨"and", "cc"⟩] 0 3).2 - 1)).lemma_
          "\"')]" = false)) :=
  ⟨by decide,
    claim_C9_boundary_cleanup [⟨"\"", "punct"⟩, ⟨"x", "nsubj"⟩, ⟨"and", "cc"⟩] 0 3 (by decide)⟩

theorem S1Graph.addNode_edges (g : S1Graph) (s : Src) (t : PType) :
    (g.addNode s t).edges = g.edges := by
  unfold addNode
  split <;> rfl

theorem S1Graph.addEdge_typeOf (g : S1Graph) (u v : Src) (r : Rel) (x : Src) :
    (g.addEdge u v r).typeOf x = g.typeOf x := by
  unfold typeOf lookup
  rw [S1Graph.addEdge_nodes]

theorem stage1Step1_edges (doc : TokenRel) : (stage1Step1 doc).edges = [] := by
  unfold stage1Step1
  have key : ∀ (l : List Src) (g : S1Graph), (l.foldl (fun g s =>
      match doc.entType s with
      | EntType.NN => g
      | EntType.DATA => g.addNode s PType.DATA
      | EntType.ACTOR => g.addNode s PType.ACTOR
      | EntType.OTHER => g.addNode s PType.OTHER) g).edges = g.edges := by
    intro l
    induction l with
    | nil => intro g; rfl
    | cons s l ih =>
      intro g
      rw [List.foldl_cons, ih]
      cases doc.entType s <;> simp [S1Graph.addNode_edges]
  rw [key]

theorem S1Graph.adj_nil_of_edges_nil {g : S1Graph} (h : g.edges = []) :
    g.adj = [] := by
  unfold adj
  rw [h]
  rfl

theorem S1Graph.hasNode_of_typeOf {g : S1Graph} {x : Src} {pt : PType}
    (h : g.typeOf x = some pt) : g.hasNode x = true := by
  unfold typeOf lookup at h
  unfold hasNode
  cases hfind : g.nodes.find? fun n => n.src = x with
  | none => rw [hfind] at h; cases h
  | some n0 =>
    rw [List.any_eq_true]
    refine ⟨n0, List.mem_of_find?_eq_some hfind, ?_⟩
    simpa using List.find?_some hfind

theorem S1Graph.typeOf_addNode_of_absent {g : S1Graph} {s : Src}
    (h : ¬ g.hasNode s = true) (t : PType) (x : Src) :
    (g.addNode s t).typeOf x = if x = s then some t else g.typeOf x := by
  unfold addNode
  rw [if_neg h]
  unfold typeOf lookup
  simp only
  rw [find?_append_eq]
  split
  · next hx =>
    subst hx
    have hnone : (g.nodes.find? fun n => n.src = x) = none := by
      rw [List.find?_eq_none]
      intro n hn hns
      exact h (List.any_eq_true.mpr ⟨n, hn, hns⟩)
    rw [hnone]
    simp
  · next hx =>
    have hsingle : (([⟨s, t, [], []⟩] : List S1Node).find? fun n => n.src = x) = none := by
      rw [List.find?_eq_none]
      intro n hn hns
      rw [List.mem_singleton] at hn
      subst hn
      simp only [decide_eq_true_eq] at hns
      exact hx hns.symm
    cases hfind : g.nodes.find? fun n => n.src = x with
    | none =>
      rw [hsingle]
      rfl
    | some n0 => rfl

theorem step2EnsureSrc1_typeOf_pres {g : S1Graph} {x : Src} {pt : PType}
    (h : g.typeOf x = some pt) (s : Src) :
    (step2EnsureSrc1 g s).typeOf x = some pt := by
  unfold step2EnsureSrc1
  split
  · exact h
  · next habs =>
    rw [S1Graph.typeOf_addNode_of_absent habs]
    split
    · next hx =>
      subst hx
      exact absurd (S1Graph.hasNode_of_typeOf h) habs
    · exact h

theorem step2EnsureSrc2_typeOf_pres {g : S1Graph} {x : Src} {pt : PType}
    (h : g.typeOf x = some pt) (s : Src) :
    (step2EnsureSrc2 g s).typeOf x = some pt := by
  unfold step2EnsureSrc2
  split
  · exact h
  · next habs =>
    rw [S1Graph.typeOf_addNode_of_absent habs]
    split
    · next hx =>
      subst hx
      exact absurd (S1Graph.hasNode_of_typeOf h) habs
    · exact h

theorem stage1Step2Ensure_typeOf_pres {g : S1Graph} {x : Src} {pt : PType}
    (h : g.typeOf x = some pt) (s1 s2 : Src) :
    (stage1Step2Ensure g s1 s2).typeOf x = some pt :=
  step2EnsureSrc2_typeOf_pres (step2EnsureSrc1_typeOf_pres h s1) s2

theorem step2EnsureSrc1_adj (g : S1Graph) (s : Src) :
    (step2EnsureSrc1 g s).adj = g.adj := by
  unfold step2EnsureSrc1
  split
  · rfl
  · unfold S1Graph.adj
    rw [S1Graph.addNode_edges]

theorem step2EnsureSrc2_adj (g : S1Graph) (s : Src) :
    (step2EnsureSrc2 g s).adj = g.adj := by
  unfold step2EnsureSrc2
  split
  · rfl
  · unfold S1Graph.adj
    rw [S1Graph.addNode_edges]

theorem stage1Step2Ensure_adj (g : S1Graph) (s1 s2 : Src) :
    (stage1Step2Ensure g s1 s2).adj = g.adj := by
  unfold stage1Step2Ensure
  rw [step2EnsureSrc2_adj, step2EnsureSrc1_adj]

/-- The step-2 typing invariant: every edge runs from an ACTOR-typed node
to a DATA-typed node. -/
theorem stage1Step2Edge_typed {g : S1Graph}
    (h : ∀ p ∈ g.adj, g.typeOf p.1 = some PType.ACTOR ∧ g.typeOf p.2 = some PType.DATA)
    (e : Src × Src × Rel) :
    ∀ p ∈ (stage1Step2Edge g e).adj,
      (stage1Step2Edge g e).typeOf p.1 = some PType.ACTOR ∧
      (stage1Step2Edge g e).typeOf p.2 = some PType.DATA := by
  unfold stage1Step2Edge
  split
  · split
    · next hty =>
      intro p hp
      rw [S1Graph.addEdge_typeOf, S1Graph.addEdge_typeOf]
      rcases S1Graph.mem_adj_addEdge.mp hp with hmem | rfl
      · rw [stage1Step2Ensure_adj] at hmem
        exact ⟨stage1Step2Ensure_typeOf_pres (h p hmem).1 e.1 e.2.1,
          stage1Step2Ensure_typeOf_pres (h p hmem).2 e.1 e.2.1⟩
      · exact hty
    · intro p hp
      rw [stage1Step2Ensure_adj] at hp
      exact ⟨stage1Step2Ensure_typeOf_pres (h p hp).1 e.1 e.2.1,
        stage1Step2Ensure_typeOf_pres (h p hp).2 e.1 e.2.1⟩
  · exact h

theorem stage1Step2Fold_typed {g : S1Graph} (l : List (Src × Src × Rel))
    (h : ∀ p ∈ g.adj, g.typeOf p.1 = some PType.ACTOR ∧ g.typeOf p.2 = some PType.DATA) :
    ∀ p ∈ (l.foldl stage1Step2Edge g).adj,
      (l.foldl stage1Step2Edge g).typeOf p.1 = some PType.ACTOR ∧
      (l.foldl stage1Step2Edge g).typeOf p.2 = some PType.DATA := by
  induction l generalizing g with
  | nil => exact h
  | cons e l ih =>
    rw [List.foldl_cons]
    exact ih (stage1Step2Edge_typed h e)

/-- A graph whose edges all run from ACTOR nodes to DATA nodes is acyclic. -/
theorem typed_acyclic {g : S1Graph}
    (h : ∀ p ∈ g.adj, g.typeOf p.1 = some PType.ACTOR ∧ g.typeOf p.2 = some PType.DATA) :
    Acyclic g.adj := by
  intro a b hab hr
  have hb : g.typeOf b = some PType.DATA := (h (a, b) hab).2
  rcases Relation.ReflTransGen.cases_head hr with heq | ⟨c, hbc, _⟩
  · subst heq
    have ha : g.typeOf b = some PType.ACTOR := (h (b, b) hab).1
    rw [hb] at ha
    cases ha
  · have hb' : g.typeOf b = some PType.ACTOR := (h (b, c) hbc).1
    rw [hb] at hb'
    cases hb'

theorem stage1Step3AddNode_graph_adj (src2 : Src) (pt : PType)
    (st : S1Graph × List Src × List Src) :
    (stage1Step3AddNode src2 pt st).1.adj = st.1.adj := by
  unfold stage1Step3AddNode
  by_cases h1 : st.1.hasNode src2
  · rw [if_pos h1]
  · rw [if_neg h1]
    by_cases h2 : src2 ∈ st.2.2
    · rw [if_pos h2]
      unfold S1Graph.adj
      rw [S1Graph.addNode_edges]
    · rw [if_neg h2]
      unfold S1Graph.adj
      rw [S1Graph.addNode_edges]

theorem stage1Step3Edge_acyclic {src1 : Src} {pt : PType}
    {st : S1Graph × List Src × List Src} (h : Acyclic st.1.adj)
    (e : Src × Src × Rel) : Acyclic (stage1Step3Edge src1 pt st e).1.adj := by
  unfold stage1Step3Edge
  by_cases hrel : e.2.2 = Rel.SUBSUM ∨ e.2.2 = Rel.COREF
  · rw [if_pos hrel]
    by_cases hty : (stage1Step3AddNode (if src1 = e.1 then e.2.1 else e.1) pt st).1.typeOf
        (if src1 = e.1 then e.2.1 else e.1) = some pt
    · rw [if_pos hty]
      show Acyclic (dag_add_edge
        (stage1Step3AddNode (if src1 = e.1 then e.2.1 else e.1) pt st).1
        e.1 e.2.1 e.2.2).2.adj
      apply dag_add_edge_acyclic
      rw [stage1Step3AddNode_graph_adj]
      exact h
    · rw [if_neg hty]
      show Acyclic (stage1Step3AddNode (if src1 = e.1 then e.2.1 else e.1) pt st).1.adj
      rw [stage1Step3AddNode_graph_adj]
      exact h
  · rw [if_neg hrel]
    exact h

theorem stage1Step3Fold_acyclic (src1 : Src) (pt : PType)
    (l : List (Src × Src × Rel)) :
    ∀ st : S1Graph × List Src × List Src, Acyclic st.1.adj →
      Acyclic ((l.foldl (stage1Step3Edge src1 pt) st)).1.adj := by
  induction l with
  | nil => exact fun st h => h
  | cons e l ih =>
    intro st h
    rw [List.foldl_cons]
    exact ih _ (stage1Step3Edge_acyclic h e)

theorem stage1Step3Loop_acyclic (doc : TokenRel) :
    ∀ (fuel : Nat) (q vis : List Src) (g : S1Graph), Acyclic g.adj →
      Acyclic (stage1Step3Loop doc fuel q vis g).adj := by
  intro fuel
  induction fuel with
  | zero => exact fun q vis g h => h
  | succ fuel ih =>
    intro q vis g h
    cases q with
    | nil => exact h
    | cons src1 q' =>
      show Acyclic (match g.typeOf src1 with
        | none => stage1Step3Loop doc fuel q' vis g
        | some pt =>
          if pt = PType.OTHER then stage1Step3Loop doc fuel q' vis g
          else
            stage1Step3Loop doc fuel
              ((s3edges doc src1).foldl (stage1Step3Edge src1 pt) (g, q', vis)).2.1
              ((s3edges doc src1).foldl (stage1Step3Edge src1 pt) (g, q', vis)).2.2
              ((s3edges doc src1).foldl (stage1Step3Edge src1 pt) (g, q', vis)).1).adj
      cases g.typeOf src1 with
      | none => exact ih q' vis g h
      | some pt =>
        show Acyclic (if pt = PType.OTHER then stage1Step3Loop doc fuel q' vis g
          else
            stage1Step3Loop doc fuel
              ((s3edges doc src1).foldl (stage1Step3Edge src1 pt) (g, q', vis)).2.1
              ((s3edges doc src1).foldl (stage1Step3Edge src1 pt) (g, q', vis)).2.2
              ((s3edges doc src1).foldl (stage1Step3Edge src1 pt) (g, q', vis)).1).adj
        by_cases hother : pt = PType.OTHER
        · rw [if_pos hother]
          exact ih q' vis g h
        · rw [if_neg hother]
          exact ih _ _ _
            (stage1Step3Fold_acyclic src1 pt (s3edges doc src1) (g, q', vis) h)

theorem stage1Step4_acyclic {g : S1Graph} (h : Acyclic g.adj) :
    Acyclic (stage1Step4 g).adj := by
  apply h.sublist
  unfold stage1Step4 S1Graph.adj
  simp only
  intro p hp
  rcases List.mem_map.mp hp with ⟨e, he, rfl⟩
  exact List.mem_map.mpr ⟨e, List.mem_of_mem_filter he, rfl⟩

theorem stage1Step2_5_edges_adj (doc : TokenRel) (classify : String → String)
    (purposeText : Src → String) (g : S1Graph) :
    (stage1Step2_5 doc classify purposeText g).adj = g.adj := by
  unfold stage1Step2_5
  simp only
  generalize (g.nodes.filterMap _ : List (Src × List String)) = dps
  induction dps generalizing g with
  | nil => rfl
  | cons dp dps ih =>
    rw [List.foldl_cons]
    rw [ih]
    unfold S1Graph.adj
    simp only [List.map_map]
    apply List.map_congr_left
    intro e _
    by_cases hc : e.dst = dp.1 ∧ e.relationship = Rel.COLLECT <;> simp [hc]

theorem stage1Step5_adj (nz : Src → List String) (order : List Src) (g : S1Graph) :
    (stage1Step5 nz order g).adj = g.adj := by
  unfold stage1Step5
  induction order generalizing g with
  | nil => rfl
  | cons s order ih =>
    rw [List.foldl_cons, ih]
    unfold S1Graph.adj
    rw [stage1Step5Node_edges]

theorem S2Graph.appendEdgeData_adj (g : S2Graph) (n1 n2 : String) (k : Rel)
    (srcList : List Src) (txt : String) (ps : List (String × String)) :
    (g.appendEdgeData n1 n2 k srcList txt ps).adj = g.adj := by
  unfold appendEdgeData adj
  simp only [List.map_map]
  apply List.map_congr_left
  intro e _
  by_cases hc : e.src = n1 ∧ e.dst = n2 ∧ e.key = k <;> simp [hc]

theorem S2Graph.append_single_adj (g : S2Graph) (u v : String) (k : Rel) :
    ({ g with edges := g.edges ++ [⟨u, v, k, [], [], []⟩] } : S2Graph).adj
      = g.adj ++ [(u, v)] := by
  unfold adj
  simp

/-- Acyclicity is preserved by any `dag_add_edge` call on the stage-2
multigraph. -/
theorem dag_add_edge2_acyclic {g : S2Graph} {u v : String} {k : Rel}
    (h : Acyclic g.adj) : Acyclic (dag_add_edge2 g u v k).2.adj := by
  unfold dag_add_edge2
  split
  · exact h
  · next hcond =>
    push_neg at hcond
    show Acyclic ({ g with edges := g.edges ++ [⟨u, v, k, [], [], []⟩] } : S2Graph).adj
    rw [S2Graph.append_single_adj]
    exact h.append_single hcond.1 (fun hr => hcond.2 (mem_reachFrom.mpr hr))

theorem stage2PairStep_acyclic {r : Rel} {srcList : List Src} {txt : String}
    {purp : List (String × String)} {g : S2Graph} (h : Acyclic g.adj)
    (p : String × String) : Acyclic (stage2PairStep r srcList txt purp g p).adj := by
  unfold stage2PairStep
  by_cases hhas : g.hasEdge p.1 p.2 r
  · rw [if_pos hhas]
    rw [S2Graph.appendEdgeData_adj]
    exact h
  · rw [if_neg hhas]
    unfold dag_add_edge2
    by_cases hc : p.1 = p.2 ∨ p.1 ∈ reachFrom g.adj p.2
    · rw [if_pos hc]
      exact h
    · rw [if_neg hc]
      show Acyclic ((({ g with edges := g.edges ++ [⟨p.1, p.2, r, [], [], []⟩] } : S2Graph)).appendEdgeData
        p.1 p.2 r srcList txt purp).adj
      rw [S2Graph.appendEdgeData_adj, S2Graph.append_single_adj]
      push_neg at hc
      exact h.append_single hc.1 (fun hr => hc.2 (mem_reachFrom.mpr hr))

theorem stage2PairFold_acyclic (r : Rel) (srcList : List Src) (txt : String)
    (purp : List (String × String)) (ps : List (String × String)) :
    ∀ g : S2Graph, Acyclic g.adj →
      Acyclic ((ps.foldl (stage2PairStep r srcList txt purp) g)).adj := by
  induction ps with
  | nil => exact fun g h => h
  | cons p ps ih =>
    intro g h
    rw [List.foldl_cons]
    exact ih _ (stage2PairStep_acyclic h p)

theorem stage2ProcessEdge_acyclic (edgeText : List Src → String) (s1 : S1Graph)
    {g : S2Graph} (h : Acyclic g.adj) (e : S1Edge) :
    Acyclic (stage2ProcessEdge edgeText s1 g e).adj := by
  unfold stage2ProcessEdge
  split
  · exact h
  · exact stage2PairFold_acyclic _ _ _ _ _ g h

theorem stage2EdgesFold_acyclic (edgeText : List Src → String) (s1 : S1Graph)
    (es : List S1Edge) :
    ∀ g : S2Graph, Acyclic g.adj →
      Acyclic ((es.foldl (stage2ProcessEdge edgeText s1) g)).adj := by
  induction es with
  | nil => exact fun g h => h
  | cons e es ih =>
    intro g h
    rw [List.foldl_cons]
    exact ih _ (stage2ProcessEdge_acyclic edgeText s1 h e)

theorem stage2Nodes_edges (s1 : S1Graph) : (stage2Nodes s1).edges = [] := by
  unfold stage2Nodes
  have key2 : ∀ (ts : List String) (pt : PType) (g : S2Graph),
      (ts.foldl (fun g t => g.addNode t pt) g).edges = g.edges := by
    intro ts pt
    induction ts with
    | nil => intro g; rfl
    | cons t ts ih =>
      intro g
      rw [List.foldl_cons, ih]
      unfold S2Graph.addNode
      split <;> rfl
  have key : ∀ (l : List S1Node) (g : S2Graph),
      (l.foldl (fun g n => n.normalized_terms.foldl (fun g t => g.addNode t n.ptype) g) g).edges
        = g.edges := by
    intro l
    induction l with
    | nil => intro g; rfl
    | cons n l ih =>
      intro g
      rw [List.foldl_cons, ih, key2]
  rw [key]

theorem S2Graph.adj_subset_of_edges_subset {g g' : S2Graph}
    (h : ∀ e ∈ g'.edges, e ∈ g.edges) : g'.adj ⊆ g.adj := by
  intro p hp
  rcases List.mem_map.mp hp with ⟨e, he, rfl⟩
  exact List.mem_map.mpr ⟨e, h e he, rfl⟩

theorem stage2Post_acyclic {g : S2Graph} (h : Acyclic g.adj) :
    Acyclic (stage2Post g).adj := by
  apply h.sublist
  apply S2Graph.adj_subset_of_edges_subset
  intro e he
  exact List.mem_of_mem_filter he

theorem prune_acyclic {g : S2Graph} (h : Acyclic g.adj) : Acyclic (prune g).adj := by
  apply h.sublist
  apply S2Graph.adj_subset_of_edges_subset
  rw [prune_edges]
  exact fun e he => he

/-- C2 — every graph the builder produces is acyclic, and so is every
intermediate graph: the stage-1 graph after type seeding, after any prefix
of the COLLECT/NOT_COLLECT edge pass, after any number of iterations of
the SUBSUM/COREF propagation loop, the finished stage-1 graph, the
stage-2 graph after any prefix of the edge-projection fold, and the
finished stage-2 graph. -/
theorem claim_C2_graphs_acyclic (doc : TokenRel) (classify : String → String)
    (purposeText : Src → String) (normalize : Src → List String)
    (order : List Src) (edgeText : List Src → String) :
    Acyclic (stage1Step1 doc).adj ∧
    (∀ k : Nat, Acyclic ((doc.edges.take k).foldl stage1Step2Edge (stage1Step1 doc)).adj) ∧
    (∀ fuel : Nat,
      Acyclic (stage1Step3Loop doc fuel
        (stage1Step2_5 doc classify purposeText (stage1Step2 doc (stage1Step1 doc))).srcs
        (stage1Step2_5 doc classify purposeText (stage1Step2 doc (stage1Step1 doc))).srcs
        (stage1Step2_5 doc classify purposeText (stage1Step2 doc (stage1Step1 doc)))).adj) ∧
    Acyclic (buildStage1 doc classify purposeText normalize order).adj ∧
    (∀ k : Nat, Acyclic
      (((buildStage1 doc classify purposeText normalize order).edges.take k).foldl
        (stage2ProcessEdge edgeText (buildStage1 doc classify purposeText normalize order))
        (stage2Nodes (buildStage1 doc classify purposeText normalize order))).adj) ∧
    Acyclic (build_graph doc classify purposeText normalize order edgeText).adj := by
  have h1 : Acyclic (stage1Step1 doc).adj := by
    rw [S1Graph.adj_nil_of_edges_nil (stage1Step1_edges doc)]
    exact Acyclic.nil
  have htyped1 : ∀ p ∈ (stage1Step1 doc).adj,
      (stage1Step1 doc).typeOf p.1 = some PType.ACTOR ∧
      (stage1Step1 doc).typeOf p.2 = some PType.DATA := by
    rw [S1Graph.adj_nil_of_edges_nil (stage1Step1_edges doc)]
    intro p hp
    cases hp
  have h2 : ∀ k : Nat,
      Acyclic ((doc.edges.take k).foldl stage1Step2Edge (stage1Step1 doc)).adj :=
    fun k => typed_acyclic (stage1Step2Fold_typed (doc.edges.take k) htyped1)
  have h2full : Acyclic (stage1Step2 doc (stage1Step1 doc)).adj := by
    unfold stage1Step2
    exact typed_acyclic (stage1Step2Fold_typed doc.edges htyped1)
  have h25 : Acyclic (stage1Step2_5 doc classify purposeText
      (stage1Step2 doc (stage1Step1 doc))).adj := by
    rw [stage1Step2_5_edges_adj]
    exact h2full
  have h3 : ∀ fuel : Nat,
      Acyclic (stage1Step3Loop doc fuel
        (stage1Step2_5 doc classify purposeText (stage1Step2 doc (stage1Step1 doc))).srcs
        (stage1Step2_5 doc classify purposeText (stage1Step2 doc (stage1Step1 doc))).srcs
        (stage1Step2_5 doc classify purposeText (stage1Step2 doc (stage1Step1 doc)))).adj :=
    fun fuel => stage1Step3Loop_acyclic doc fuel _ _ _ h25
  have h4 : Acyclic (buildStage1 doc classify purposeText normalize order).adj := by
    unfold buildStage1
    rw [stage1Step5_adj]
    apply stage1Step4_acyclic
    unfold stage1Step3
    exact stage1Step3Loop_acyclic doc _ _ _ _ h25
  have h5nodes : Acyclic (stage2Nodes (buildStage1 doc classify purposeText normalize order)).adj := by
    have : (stage2Nodes (buildStage1 doc classify purposeText normalize order)).adj = [] := by
      unfold S2Graph.adj
      rw [stage2Nodes_edges]
      rfl
    rw [this]
    exact Acyclic.nil
  have h5 : ∀ k : Nat, Acyclic
      (((buildStage1 doc classify purposeText normalize order).edges.take k).foldl
        (stage2ProcessEdge edgeText (buildStage1 doc classify purposeText normalize order))
        (stage2Nodes (buildStage1 doc classify purposeText normalize order))).adj :=
    fun k => stage2EdgesFold_acyclic _ _ _ _ h5nodes
  have h6 : Acyclic (build_graph doc classify purposeText normalize order edgeText).adj := by
    unfold build_graph buildStage2
    apply prune_acyclic
    apply stage2Post_acyclic
    exact stage2EdgesFold_acyclic _ _ _ _ h5nodes
  exact ⟨h1, h2, h3, h4, h5, h6⟩

theorem foldl_unionSet_nodup {α β : Type} [DecidableEq α] {l : List β}
    {f : β → List α} {b : List α} (hb : b.Nodup) :
    (l.foldl (fun acc x => unionSet acc (f x)) b).Nodup := by
  induction l generalizing b with
  | nil => exact hb
  | cons a l ih =>
    rw [List.foldl_cons]
    exact ih (nodup_unionSet hb)

theorem ntermsUnion_nodup (s1 : S1Graph) (cm : List Src) :
    (ntermsUnion s1 cm).Nodup :=
  foldl_unionSet_nodup List.nodup_nil

theorem s1EdgePairs_nodup (s1 : S1Graph) (e : S1Edge) :
    (s1EdgePairs s1 e).Nodup :=
  nodup_listProd (ntermsUnion_nodup s1 _) (ntermsUnion_nodup s1 _)

theorem collectTotal_nil (s1 : S1Graph) (a b : String) :
    collectTotal s1 [] a b = 0 := rfl

theorem collectTotal_append (s1 : S1Graph) (pe : List S1Edge) (f : S1Edge)
    (a b : String) :
    collectTotal s1 (pe ++ [f]) a b = collectTotal s1 pe a b +
      (if f.relationship = Rel.COLLECT ∧ (a, b) ∈ s1EdgePairs s1 f
        then f.purposes.length else 0) := by
  unfold collectTotal
  rw [List.filter_append, List.map_append, List.sum_append]
  congr 1
  by_cases hc : f.relationship = Rel.COLLECT ∧ (a, b) ∈ s1EdgePairs s1 f
  · rw [if_pos hc]
    simp [hc]
  · rw [if_neg hc]
    simp [hc]

theorem collectTotal_eq_zero {s1 : S1Graph} {pe : List S1Edge} {a b : String}
    (h : ¬ ∃ f' ∈ pe, f'.relationship = Rel.COLLECT ∧ (a, b) ∈ s1EdgePairs s1 f') :
    collectTotal s1 pe a b = 0 := by
  unfold collectTotal
  have hf : pe.filter (fun e =>
      decide (e.relationship = Rel.COLLECT ∧ (a, b) ∈ s1EdgePairs s1 e)) = [] := by
    rw [List.filter_eq_nil]
    intro e he hcon
    simp only [decide_eq_true_eq] at hcon
    exact h ⟨e, he, hcon⟩
  rw [hf]
  rfl

theorem any_map_of_pres {β : Type} (f : β → β) (p : β → Bool)
    (hf : ∀ x, p (f x) = p x) (l : List β) : (l.map f).any p = l.any p := by
  induction l with
  | nil => rfl
  | cons a l ih =>
    rw [List.map_cons, List.any_cons, List.any_cons, hf, ih]

theorem S2Graph.hasEdge_appendEdgeData (g : S2Graph) (n1 n2 : String) (k : Rel)
    (sl : List Src) (txt : String) (ps : List (String × String))
    (a b : String) (k' : Rel) :
    (g.appendEdgeData n1 n2 k sl txt ps).hasEdge a b k' = g.hasEdge a b k' := by
  unfold appendEdgeData hasEdge
  simp only
  apply any_map_of_pres
  intro e
  by_cases hc : e.src = n1 ∧ e.dst = n2 ∧ e.key = k <;> simp [hc]

theorem S2Graph.hasEdge_append_fresh (g : S2Graph) (n1 n2 : String) (k : Rel)
    (a b : String) (k' : Rel) :
    ({ g with edges := g.edges ++ [⟨n1, n2, k, [], [], []⟩] } : S2Graph).hasEdge a b k' =
      (g.hasEdge a b k' || decide (n1 = a ∧ n2 = b ∧ k = k')) := by
  unfold hasEdge
  simp only
  rw [List.any_append]
  congr 1
  simp only [List.any_cons, List.any_nil, Bool.or_false]

theorem S2Graph.hasEdge_true_iff {g : S2Graph} {a b : String} {k : Rel} :
    g.hasEdge a b k = true ↔ ∃ e ∈ g.edges, e.src = a ∧ e.dst = b ∧ e.key = k := by
  unfold hasEdge
  rw [List.any_eq_true]
  simp

/-- One pair-processing step of the stage-2 projection maintains the
purpose-count bookkeeping: every COLLECT-keyed edge carries the base count
`T` plus the processed edge's contribution once its pair has been handled,
and every COLLECT pair still missing from the graph is blocked by an
existing path.  `T` abstracts the counts contributed by previously
processed stage-1 edges, and `P` the pairs they cover. -/
theorem stage2PairStep_inv (f : S1Edge) (sl : List Src)
    (txt : String) (T : String → String → Nat) (P : String → String → Prop)
    (hT : ∀ a b, ¬ P a b → T a b = 0) (dp : List (String × String))
    (m1 m2 : String) (hnot : (m1, m2) ∉ dp) (g : S2Graph)
    (hA : ∀ ed ∈ g.edges, ed.key = Rel.COLLECT →
      ed.purposes.length = T ed.src ed.dst +
        (if f.relationship = Rel.COLLECT ∧ (ed.src, ed.dst) ∈ dp
          then f.purposes.length else 0))
    (hB : ∀ a b : String, g.hasEdge a b Rel.COLLECT = false →
      (P a b ∨ (f.relationship = Rel.COLLECT ∧ (a, b) ∈ dp)) →
      (a = b ∨ Reach g.adj b a)) :
    (∀ ed ∈ (stage2PairStep f.relationship sl txt
        (if f.relationship = Rel.COLLECT then f.purposes else []) g (m1, m2)).edges,
      ed.key = Rel.COLLECT →
      ed.purposes.length = T ed.src ed.dst +
        (if f.relationship = Rel.COLLECT ∧ (ed.src, ed.dst) ∈ dp ++ [(m1, m2)]
          then f.purposes.length else 0)) ∧
    (∀ a b : String, (stage2PairStep f.relationship sl txt
        (if f.relationship = Rel.COLLECT then f.purposes else []) g (m1, m2)).hasEdge
          a b Rel.COLLECT = false →
      (P a b ∨ (f.relationship = Rel.COLLECT ∧ (a, b) ∈ dp ++ [(m1, m2)])) →
      (a = b ∨ Reach (stage2PairStep f.relationship sl txt
        (if f.relationship = Rel.COLLECT then f.purposes else []) g (m1, m2)).adj b a)) := by
  by_cases hhas : g.hasEdge m1 m2 f.relationship = true
  · -- the aggregated edge already exists: append to it
    have hg' : stage2PairStep f.relationship sl txt
        (if f.relationship = Rel.COLLECT then f.purposes else []) g (m1, m2) =
        g.appendEdgeData m1 m2 f.relationship sl txt
          (if f.relationship = Rel.COLLECT then f.purposes else []) := by
      unfold stage2PairStep
      rw [if_pos hhas]
    rw [hg']
    constructor
    · intro ed'' hed'' hkey''
      unfold S2Graph.appendEdgeData at hed''
      rcases List.mem_map.mp hed'' with ⟨ed, hed, hupd⟩
      by_cases hm : ed.src = m1 ∧ ed.dst = m2 ∧ ed.key = f.relationship
      · rw [if_pos hm] at hupd
        subst hupd
        simp only at hkey'' ⊢
        have hfr : f.relationship = Rel.COLLECT := by rw [← hm.2.2]; exact hkey''
        rw [hm.1, hm.2.1]
        have hcond : f.relationship = Rel.COLLECT ∧ (m1, m2) ∈ dp ++ [(m1, m2)] :=
          ⟨hfr, List.mem_append.mpr (Or.inr (List.mem_singleton_self _))⟩
        simp only [if_pos hfr]
        rw [if_pos hcond, List.length_append]
        have hold := hA ed hed (by rw [hm.2.2]; exact hfr)
        rw [if_neg (fun hcon => hnot (by rw [← hm.1, ← hm.2.1]; exact hcon.2))] at hold
        rw [hm.1, hm.2.1] at hold
        omega
      · rw [if_neg hm] at hupd
        subst hupd
        have hold := hA ed hed hkey''
        rw [hold]
        congr 1
        by_cases hc : f.relationship = Rel.COLLECT ∧ (ed.src, ed.dst) ∈ dp
        · rw [if_pos hc, if_pos ⟨hc.1, List.mem_append.mpr (Or.inl hc.2)⟩]
        · rw [if_neg hc, if_neg]
          rintro ⟨hfr, hmem⟩
          rcases List.mem_append.mp hmem with h | h
          · exact hc ⟨hfr, h⟩
          · rw [List.mem_singleton] at h
            have h1 : ed.src = m1 := congrArg Prod.fst h
            have h2 : ed.dst = m2 := congrArg Prod.snd h
            exact hm ⟨h1, h2, by rw [hkey'', hfr]⟩
    · intro a b hfalse hblocked
      rw [S2Graph.hasEdge_appendEdgeData] at hfalse
      rw [S2Graph.appendEdgeData_adj]
      rcases hblocked with h | ⟨hfr, hmem⟩
      · exact hB a b hfalse (Or.inl h)
      · rcases List.mem_append.mp hmem with h | h
        · exact hB a b hfalse (Or.inr ⟨hfr, h⟩)
        · rw [List.mem_singleton] at h
          have h1 : a = m1 := congrArg Prod.fst h
          have h2 : b = m2 := congrArg Prod.snd h
          subst h1; subst h2
          rw [← hfr] at hfalse
          rw [hfalse] at hhas
          cases hhas
  · by_cases hdag : m1 = m2 ∨ m1 ∈ reachFrom g.adj m2
    · -- rejected insertion: the graph is unchanged and the pair is blocked
      have hg' : stage2PairStep f.relationship sl txt
          (if f.relationship = Rel.COLLECT then f.purposes else []) g (m1, m2) = g := by
        unfold stage2PairStep
        rw [if_neg hhas]
        unfold dag_add_edge2
        rw [if_pos hdag]
        rfl
      rw [hg']
      constructor
      · intro ed hed hkey
        have hold := hA ed hed hkey
        rw [hold]
        congr 1
        by_cases hc : f.relationship = Rel.COLLECT ∧ (ed.src, ed.dst) ∈ dp
        · rw [if_pos hc, if_pos ⟨hc.1, List.mem_append.mpr (Or.inl hc.2)⟩]
        · rw [if_neg hc, if_neg]
          rintro ⟨hfr, hmem⟩
          rcases List.mem_append.mp hmem with h | h
          · exact hc ⟨hfr, h⟩
          · rw [List.mem_singleton] at h
            have h1 : ed.src = m1 := congrArg Prod.fst h
            have h2 : ed.dst = m2 := congrArg Prod.snd h
            apply hhas
            rw [S2Graph.hasEdge_true_iff]
            exact ⟨ed, hed, h1, h2, by rw [hkey, hfr]⟩
      · intro a b hfalse hblocked
        rcases hblocked with h | ⟨hfr, hmem⟩
        · exact hB a b hfalse (Or.inl h)
        · rcases List.mem_append.mp hmem with h | h
          · exact hB a b hfalse (Or.inr ⟨hfr, h⟩)
          · rw [List.mem_singleton] at h
            have h1 : a = m1 := congrArg Prod.fst h
            have h2 : b = m2 := congrArg Prod.snd h
            subst h1; subst h2
            rcases hdag with h | h
            · exact Or.inl h
            · exact Or.inr (mem_reachFrom.mp h)
    · -- fresh insertion through dag_add_edge, then append the attributes
      have hg' : stage2PairStep f.relationship sl txt
          (if f.relationship = Rel.COLLECT then f.purposes else []) g (m1, m2) =
          ({ g with edges := g.edges ++ [⟨m1, m2, f.relationship, [], [], []⟩] } : S2Graph).appendEdgeData
            m1 m2 f.relationship sl txt
            (if f.relationship = Rel.COLLECT then f.purposes else []) := by
        unfold stage2PairStep
        rw [if_neg hhas]
        unfold dag_add_edge2
        rw [if_neg hdag]
        rfl
      rw [hg']
      have hnoP : f.relationship = Rel.COLLECT → ¬ P m1 m2 := by
        intro hfr hP
        have := hB m1 m2 (by rw [← hfr]; exact Bool.eq_false_iff.mpr hhas) (Or.inl hP)
        push_neg at hdag
        rcases this with h | h
        · exact hdag.1 h
        · exact hdag.2 (mem_reachFrom.mpr h)
      constructor
      · intro ed'' hed'' hkey''
        unfold S2Graph.appendEdgeData at hed''
        simp only at hed''
        rw [List.map_append] at hed''
        rcases List.mem_append.mp hed'' with hmem | hmem
        · -- an old edge: it cannot match the fresh key, so it is unchanged
          rcases List.mem_map.mp hmem with ⟨ed, hed, hupd⟩
          have hm : ¬ (ed.src = m1 ∧ ed.dst = m2 ∧ ed.key = f.relationship) := by
            rintro ⟨h1, h2, h3⟩
            apply hhas
            rw [S2Graph.hasEdge_true_iff]
            exact ⟨ed, hed, h1, h2, h3⟩
          rw [if_neg hm] at hupd
          subst hupd
          have hold := hA ed hed hkey''
          rw [hold]
          congr 1
          by_cases hc : f.relationship = Rel.COLLECT ∧ (ed.src, ed.dst) ∈ dp
          · rw [if_pos hc, if_pos ⟨hc.1, List.mem_append.mpr (Or.inl hc.2)⟩]
          · rw [if_neg hc, if_neg]
            rintro ⟨hfr, hmem2⟩
            rcases List.mem_append.mp hmem2 with h | h
            · exact hc ⟨hfr, h⟩
            · rw [List.mem_singleton] at h
              have h1 : ed.src = m1 := congrArg Prod.fst h
              have h2 : ed.dst = m2 := congrArg Prod.snd h
              exact hm ⟨h1, h2, by rw [hkey'', hfr]⟩
        · -- the freshly created edge
          rcases List.mem_map.mp hmem with ⟨ed, hed, hupd⟩
          rw [List.mem_singleton] at hed
          subst hed
          dsimp only at hupd
          rw [if_pos (⟨rfl, rfl, rfl⟩ :
            m1 = m1 ∧ m2 = m2 ∧ f.relationship = f.relationship)] at hupd
          subst hupd
          simp only at hkey'' ⊢
          have hfr : f.relationship = Rel.COLLECT := hkey''
          have hTzero : T m1 m2 = 0 := hT m1 m2 (hnoP hfr)
          have hcond : f.relationship = Rel.COLLECT ∧ (m1, m2) ∈ dp ++ [(m1, m2)] :=
            ⟨hfr, List.mem_append.mpr (Or.inr (List.mem_singleton_self _))⟩
          rw [hTzero, if_pos hfr, if_pos hcond]
          simp [hfr]
      · intro a b hfalse hblocked
        rw [S2Graph.hasEdge_appendEdgeData, S2Graph.hasEdge_append_fresh] at hfalse
        rw [Bool.or_eq_false_iff] at hfalse
        rw [S2Graph.appendEdgeData_adj, S2Graph.append_single_adj]
        have hmono : ∀ x y : String, Reach g.adj y x →
            Reach (g.adj ++ [(m1, m2)]) y x :=
          fun x y h => h.mono (by intro q hq; exact List.mem_append.mpr (Or.inl hq))
        rcases hblocked with h | ⟨hfr, hmem⟩
        · rcases hB a b hfalse.1 (Or.inl h) with h' | h'
          · exact Or.inl h'
          · exact Or.inr (hmono a b h')
        · rcases List.mem_append.mp hmem with h | h
          · rcases hB a b hfalse.1 (Or.inr ⟨hfr, h⟩) with h' | h'
            · exact Or.inl h'
            · exact Or.inr (hmono a b h')
          · rw [List.mem_singleton] at h
            have h1 : a = m1 := congrArg Prod.fst h
            have h2 : b = m2 := congrArg Prod.snd h
            subst h1; subst h2
            exfalso
            have := hfalse.2
            rw [decide_eq_false_iff_not] at this
            exact this ⟨rfl, rfl, hfr⟩

/-- Folding `stage2PairStep` over the remaining pairs of a stage-1 edge's
cross product maintains the purpose-count bookkeeping: the processed
edge's contribution accumulates exactly over the handled pairs, and every
covered-but-absent COLLECT pair stays blocked. -/
theorem stage2PairFold_inv (f : S1Edge) (sl : List Src) (txt : String)
    (T : String → String → Nat) (P : String → String → Prop)
    (hT : ∀ a b, ¬ P a b → T a b = 0) :
    ∀ (ps dp : List (String × String)), (dp ++ ps).Nodup → ∀ g : S2Graph,
    (∀ ed ∈ g.edges, ed.key = Rel.COLLECT →
      ed.purposes.length = T ed.src ed.dst +
        (if f.relationship = Rel.COLLECT ∧ (ed.src, ed.dst) ∈ dp
          then f.purposes.length else 0)) →
    (∀ a b : String, g.hasEdge a b Rel.COLLECT = false →
      (P a b ∨ (f.relationship = Rel.COLLECT ∧ (a, b) ∈ dp)) →
      (a = b ∨ Reach g.adj b a)) →
    (∀ ed ∈ (ps.foldl (stage2PairStep f.relationship sl txt
        (if f.relationship = Rel.COLLECT then f.purposes else [])) g).edges,
      ed.key = Rel.COLLECT →
      ed.purposes.length = T ed.src ed.dst +
        (if f.relationship = Rel.COLLECT ∧ (ed.src, ed.dst) ∈ dp ++ ps
          then f.purposes.length else 0)) ∧
    (∀ a b : String, (ps.foldl (stage2PairStep f.relationship sl txt
        (if f.relationship = Rel.COLLECT then f.purposes else [])) g).hasEdge
          a b Rel.COLLECT = false →
      (P a b ∨ (f.relationship = Rel.COLLECT ∧ (a, b) ∈ dp ++ ps)) →
      (a = b ∨ Reach (ps.foldl (stage2PairStep f.relationship sl txt
        (if f.relationship = Rel.COLLECT then f.purposes else [])) g).adj b a)) := by
  intro ps
  induction ps with
  | nil =>
    intro dp hnd g hA hB
    rw [List.foldl_nil, List.append_nil]
    exact ⟨hA, hB⟩
  | cons p ps ih =>
    intro dp hnd g hA hB
    have hnot : p ∉ dp := by
      rw [List.nodup_append] at hnd
      exact fun hmem => (hnd.2.2 hmem (List.mem_cons_self _ _)).elim
    have hstep := stage2PairStep_inv f sl txt T P hT dp p.1 p.2 hnot g hA hB
    have heq : (dp ++ [p]) ++ ps = dp ++ p :: ps := by
      rw [List.append_assoc]
      rfl
    have hres := ih (dp ++ [p]) (by rw [heq]; exact hnd)
      (stage2PairStep f.relationship sl txt
        (if f.relationship = Rel.COLLECT then f.purposes else []) g p)
      hstep.1 hstep.2
    rw [List.foldl_cons, ← heq]
    exact hres

/-- Folding the stage-2 edge-projection over a suffix of the stage-1 edge
list keeps every COLLECT edge's purpose count equal to the total
contributed by the processed stage-1 COLLECT edges covering its pair, and
keeps every covered-but-absent COLLECT pair blocked by an existing path. -/
theorem stage2ProcessFold_inv (edgeText : List Src → String) (s1 : S1Graph) :
    ∀ (es pe : List S1Edge) (g : S2Graph),
    (∀ ed ∈ g.edges, ed.key = Rel.COLLECT →
      ed.purposes.length = collectTotal s1 pe ed.src ed.dst) →
    (∀ a b : String, g.hasEdge a b Rel.COLLECT = false →
      (∃ f' ∈ pe, f'.relationship = Rel.COLLECT ∧ (a, b) ∈ s1EdgePairs s1 f') →
      (a = b ∨ Reach g.adj b a)) →
    (∀ ed ∈ (es.foldl (stage2ProcessEdge edgeText s1) g).edges,
      ed.key = Rel.COLLECT →
      ed.purposes.length = collectTotal s1 (pe ++ es) ed.src ed.dst) ∧
    (∀ a b : String,
      (es.foldl (stage2ProcessEdge edgeText s1) g).hasEdge a b Rel.COLLECT = false →
      (∃ f' ∈ pe ++ es, f'.relationship = Rel.COLLECT ∧ (a, b) ∈ s1EdgePairs s1 f') →
      (a = b ∨ Reach (es.foldl (stage2ProcessEdge edgeText s1) g).adj b a)) := by
  intro es
  induction es with
  | nil =>
    intro pe g hA hB
    rw [List.foldl_nil, List.append_nil]
    exact ⟨hA, hB⟩
  | cons f es ih =>
    intro pe g hA hB
    have heq : (pe ++ [f]) ++ es = pe ++ f :: es := by
      rw [List.append_assoc]
      rfl
    rw [List.foldl_cons, ← heq]
    by_cases hcor : f.relationship = Rel.COREF
    · have hproc : stage2ProcessEdge edgeText s1 g f = g := by
        unfold stage2ProcessEdge
        rw [if_pos hcor]
      rw [hproc]
      apply ih (pe ++ [f]) g
      · intro ed hed hkey
        have hnc : ¬ (f.relationship = Rel.COLLECT ∧
            (ed.src, ed.dst) ∈ s1EdgePairs s1 f) := by
          rintro ⟨hcon, -⟩
          rw [hcor] at hcon
          exact absurd hcon (by decide)
        rw [collectTotal_append, if_neg hnc, Nat.add_zero]
        exact hA ed hed hkey
      · intro a b hfalse hex
        rcases hex with ⟨f', hf', hcol, hpair⟩
        rcases List.mem_append.mp hf' with h | h
        · exact hB a b hfalse ⟨f', h, hcol, hpair⟩
        · rw [List.mem_singleton] at h
          subst h
          rw [hcor] at hcol
          exact absurd hcol (by decide)
    · have hproc : stage2ProcessEdge edgeText s1 g f =
          (s1EdgePairs s1 f).foldl
            (stage2PairStep f.relationship
              (sortSrcs (unionSet (corefMainOf s1 f.src) (corefMainOf s1 f.dst)))
              (edgeText (unionSet (corefMainOf s1 f.src) (corefMainOf s1 f.dst)))
              (if f.relationship = Rel.COLLECT then f.purposes else [])) g := by
        unfold stage2ProcessEdge s1EdgePairs
        rw [if_neg hcor]
      rw [hproc]
      have hfold := stage2PairFold_inv f
        (sortSrcs (unionSet (corefMainOf s1 f.src) (corefMainOf s1 f.dst)))
        (edgeText (unionSet (corefMainOf s1 f.src) (corefMainOf s1 f.dst)))
        (collectTotal s1 pe)
        (fun a b => ∃ f' ∈ pe, f'.relationship = Rel.COLLECT ∧
          (a, b) ∈ s1EdgePairs s1 f')
        (fun a b h => collectTotal_eq_zero h)
        (s1EdgePairs s1 f) [] (by simpa using s1EdgePairs_nodup s1 f) g
        (by
          intro ed hed hkey
          rw [if_neg (fun hcon => List.not_mem_nil _ hcon.2), Nat.add_zero]
          exact hA ed hed hkey)
        (by
          intro a b hfalse hPor
          rcases hPor with hP | ⟨hfr, hmem⟩
          · exact hB a b hfalse hP
          · exact absurd hmem (List.not_mem_nil _))
      apply ih (pe ++ [f])
      · intro ed hed hkey
        rw [collectTotal_append]
        have hlen := hfold.1 ed hed hkey
        rw [List.nil_append] at hlen
        exact hlen
      · intro a b hfalse hex
        apply hfold.2 a b hfalse
        rcases hex with ⟨f', hf', hcol, hpair⟩
        rcases List.mem_append.mp hf' with h | h
        · exact Or.inl ⟨f', h, hcol, hpair⟩
        · rw [List.mem_singleton] at h
          subst h
          refine Or.inr ⟨hcol, ?_⟩
          rw [List.nil_append]
          exact hpair

/-- C6: every COLLECT edge of the stage-2 graph accumulates exactly the
(purpose-category, purpose-text) pairs of the stage-1 COLLECT edges
collapsed into it: its purpose-list length equals the sum, over the
stage-1 COLLECT edges whose canonical-term cross product contains the
edge's pair, of those edges' purpose-pair counts. -/
theorem claim_C6_collect_purpose_count (edgeText : List Src → String)
    (s1 : S1Graph) :
    ∀ ed ∈ (buildStage2 edgeText s1).edges, ed.key = Rel.COLLECT →
      ed.purposes.length = collectTotal s1 s1.edges ed.src ed.dst := by
  intro ed hed hkey
  unfold buildStage2 at hed
  rw [prune_edges] at hed
  have hed' : ed ∈ (s1.edges.foldl (stage2ProcessEdge edgeText s1)
      (stage2Nodes s1)).edges := List.mem_of_mem_filter hed
  have hmain := stage2ProcessFold_inv edgeText s1 s1.edges [] (stage2Nodes s1)
    (by
      intro e he hk
      rw [stage2Nodes_edges] at he
      exact absurd he (List.not_mem_nil _))
    (by
      rintro a b hfalse ⟨f', hf', -⟩
      exact absurd hf' (List.not_mem_nil _))
  have hlen := hmain.1 ed hed' hkey
  rw [List.nil_append] at hlen
  exact hlen

/-- Witness for C6 at a concrete two-node document: the single stage-1
COLLECT edge with one purpose pair yields a stage-2 COLLECT edge carrying
exactly that one pair. -/
theorem claim_C6_collect_purpose_count_witness :
    (⟨"a", "d", Rel.COLLECT, [[(0, 0), (0, 1)]], [""], [("c", "t")]⟩ : S2Edge) ∈
      (buildStage2 (fun _ => "")
        ⟨[⟨(0, 0), PType.DATA, ["d"], [(0, 0)]⟩,
          ⟨(0, 1), PType.ACTOR, ["a"], [(0, 1)]⟩],
          [⟨(0, 1), (0, 0), Rel.COLLECT, [("c", "t")]⟩]⟩).edges ∧
    ([("c", "t")] : List (String × String)).length =
      collectTotal
        ⟨[⟨(0, 0), PType.DATA, ["d"], [(0, 0)]⟩,
          ⟨(0, 1), PType.ACTOR, ["a"], [(0, 1)]⟩],
          [⟨(0, 1), (0, 0), Rel.COLLECT, [("c", "t")]⟩]⟩
        [⟨(0, 1), (0, 0), Rel.COLLECT, [("c", "t")]⟩] "a" "d" :=
  ⟨by decide,
    claim_C6_collect_purpose_count (fun _ => "")
      ⟨[⟨(0, 0), PType.DATA, ["d"], [(0, 0)]⟩,
        ⟨(0, 1), PType.ACTOR, ["a"], [(0, 1)]⟩],
        [⟨(0, 1), (0, 0), Rel.COLLECT, [("c", "t")]⟩]⟩
      ⟨"a", "d", Rel.COLLECT, [[(0, 0), (0, 1)]], [""], [("c", "t")]⟩
      (by decide) (by decide)⟩

end BuildGraph
